import Mathlib

/-!
Verification development for ReconFlow (`ReconFlow.py`).

The program is shallowly embedded: URLs and file lines are lists of
characters, Python's `urllib.parse.urlparse` is modelled by `urlparseE`
(including the `ValueError` it raises on an authority with unbalanced
square brackets, and the `;params` splitting it performs for the schemes
in `uses_params`), network traffic is an oracle (a function from page
number to response for discovery, explicit attempt outcomes for probing),
and wall-clock time for the rate gate is modelled with rationals.
-/

/-- Character strings, modelled as lists of characters. -/
abbrev Str := List Char

/-- Python `str.lower` restricted to ASCII data. -/
def lower (s : Str) : Str := s.map Char.toLower

/-- The whitespace characters stripped by Python `str.strip()` (ASCII part). -/
def isWS (c : Char) : Bool :=
  c == ' ' || c == '\t' || c == '\n' || c == '\r' || c == '\x0b' || c == '\x0c'

/-- Python `str.strip()`: remove leading and trailing whitespace. -/
def strip (s : Str) : Str :=
  ((s.dropWhile isWS).reverse.dropWhile isWS).reverse

/-- Characters allowed in a URL scheme (`urllib.parse.scheme_chars`). -/
def isSchemeChar (c : Char) : Bool :=
  c.isAlpha || c.isDigit || c == '+' || c == '-' || c == '.'

/-- Whether the first character exists and is an ASCII letter. -/
def headAlpha : Str → Bool
  | [] => false
  | c :: _ => c.isAlpha

/-- `s.split(b, 1)`: the part before the first occurrence of `b` and the
part after it (the whole string and `[]` when `b` does not occur). -/
def splitFirst (b : Char) (s : Str) : Str × Str :=
  (s.takeWhile (fun c => c != b), (s.dropWhile (fun c => c != b)).tail)

/-- The characters at which `urllib.parse._splitnetloc` stops. -/
def stopChar (c : Char) : Bool := c == '/' || c == '?' || c == '#'

/-- The result record of `urllib.parse.urlparse`. -/
structure ParseResult where
  scheme : Str
  netloc : Str
  path : Str
  params : Str
  query : Str
  fragment : Str
deriving Repr, DecidableEq

/-- The candidate scheme: the text before the first `:`. -/
def schemePre (url : Str) : Str := url.takeWhile (fun c => c != ':')

/-- The scheme-detection step of `urllib.parse.urlsplit`: if the text up to
the first `:` is a nonempty run of scheme characters starting with a letter,
it is the (lowercased) scheme and the rest follows the `:`. -/
def schemeSplit (url : Str) : Str × Str :=
  if (schemePre url).length < url.length ∧ schemePre url ≠ [] ∧
     headAlpha (schemePre url) = true ∧ (schemePre url).all isSchemeChar = true
  then (lower (schemePre url), url.drop ((schemePre url).length + 1))
  else ([], url)

/-- The netloc step of `urllib.parse.urlsplit`: after a leading `//`, the
authority extends to the first `/`, `?` or `#`.  `urlsplit` raises
`ValueError ("Invalid IPv6 URL")` when the authority contains `[` without
`]` or vice versa. -/
def netlocSplit (rest : Str) : Except String (Str × Str) :=
  if rest.take 2 = ['/', '/'] then
    if ((rest.drop 2).takeWhile (fun c => !stopChar c)).contains '[' !=
       ((rest.drop 2).takeWhile (fun c => !stopChar c)).contains ']'
    then .error "Invalid IPv6 URL"
    else .ok ((rest.drop 2).takeWhile (fun c => !stopChar c),
              (rest.drop 2).dropWhile (fun c => !stopChar c))
  else .ok ([], rest)

/-- `urllib.parse.urlsplit` (with `allow_fragments=True`). -/
def urlsplitE (url : Str) : Except String ParseResult :=
  match netlocSplit (schemeSplit url).2 with
  | .error e => .error e
  | .ok nr =>
    .ok { scheme := (schemeSplit url).1, netloc := nr.1,
          path := (splitFirst '?' (splitFirst '#' nr.2).1).1, params := [],
          query := (splitFirst '?' (splitFirst '#' nr.2).1).2,
          fragment := (splitFirst '#' nr.2).2 }

/-- `urllib.parse.uses_params`: the schemes for which `urlparse` splits
`;params` off the path. -/
def usesParams : List Str :=
  ["", "ftp", "hdl", "prospero", "http", "imap", "https", "shttp", "rtsp",
   "rtspu", "sip", "sips", "mms", "sftp", "tel"].map String.data

/-- `urllib.parse._splitparams`: split `;params` off the last path segment. -/
def _splitparams (url : Str) : Str × Str :=
  if '/' ∈ url then
    let lastSeg := (url.reverse.takeWhile (fun c => c != '/')).reverse
    let pre := url.take (url.length - lastSeg.length)
    if ';' ∈ lastSeg then
      (pre ++ lastSeg.takeWhile (fun c => c != ';'),
       (lastSeg.dropWhile (fun c => c != ';')).tail)
    else (url, [])
  else
    if ';' ∈ url then
      (url.takeWhile (fun c => c != ';'), (url.dropWhile (fun c => c != ';')).tail)
    else (url, [])

/-- `urllib.parse.urlparse`. -/
def urlparseE (url : Str) : Except String ParseResult := do
  let r ← urlsplitE url
  if r.scheme ∈ usesParams ∧ ';' ∈ r.path then
    let p := _splitparams r.path
    return { r with path := p.1, params := p.2 }
  else
    return r

/-- The de-duplication signature the program derives from a parsed URL:
`f"{p.netloc}{p.path}"`. -/
def sigOf (p : ParseResult) : Str := p.netloc ++ p.path

/-- Signature of a URL string (`urlparse` then `netloc + path`), carrying
the possible `ValueError`. -/
def csigE (u : Str) : Except String Str := (urlparseE u).map sigOf

/-- Association-list lookup, modelling Python dict access with a key. -/
def alookup {α : Type} : List (Str × α) → Str → Option α
  | [], _ => none
  | (k, v) :: t, q => if k = q then some v else alookup t q

/-- Association-list update, modelling Python dict assignment. -/
def aset {α : Type} : List (Str × α) → Str → α → List (Str × α)
  | [], q, n => [(q, n)]
  | (k, v) :: t, q, n => if k = q then (k, n) :: t else (k, v) :: aset t q n

/-- `self.keywords` from `ReconFlow.__init__`. -/
def defaultKeywords : List Str :=
  ["login", "signin", "auth", "admin", "portal", "dashboard", "account",
   "register"].map String.data

/-- `self.blacklist` from `ReconFlow.__init__`. -/
def defaultBlacklist : List Str :=
  [".jpg", ".png", ".css", ".js", ".pdf", ".svg", ".zip", ".docx",
   ".gif"].map String.data

/-- `self.noise_words` from `ReconFlow.__init__`. -/
def noiseWords : List Str :=
  ["/news/", "/blog/", "/help/", "/faq/", "/terms/", "/privacy/"].map String.data

/-- The keyword and extension configuration consumed by discovery. -/
structure DiscConfig where
  keywords : List Str
  blacklist : List Str

/-- The configuration built in `ReconFlow.__init__`. -/
def defaultCfg : DiscConfig :=
  { keywords := defaultKeywords, blacklist := defaultBlacklist }

/-- One newline-delimited record of a Common Crawl index response body:
either a malformed line (bad JSON, or a record whose handling raises) or a
record with a `url` field. -/
inductive JsonRec where
  | malformed : JsonRec
  | urlRec (url : Str) : JsonRec
deriving Repr, DecidableEq

/-- The response to one index request in `run_discovery`: 404, some other
non-200 status, a transport-level exception, or a 200 page body.  `writeOk`
tells whether the progress-file write after processing this page succeeds. -/
inductive PageResp where
  | notFound : PageResp
  | httpErr : PageResp
  | exn : PageResp
  | pageOk (recs : List JsonRec) (writeOk : Bool) : PageResp

/-- Why the discovery loop ended. -/
inductive StopReason where
  | limitReached : StopReason
  | exhausted : StopReason
  | interrupted : StopReason
deriving Repr, DecidableEq

/-- The state of one `run_discovery` call: the corpus file, the in-memory
signature set, the in-memory progress dict and the persisted progress file,
the current page, the saved counter, and ghost fields recording the pages
requested, the pages fully processed and the progress values written. -/
structure DiscRun where
  corpus : List Str
  seen : List Str
  progressMem : List (Str × Nat)
  progressFile : List (Str × Nat)
  page : Nat
  totalSaved : Nat
  requested : List Nat
  processedPages : List Nat
  progressWrites : List Nat
  stopped : Option StopReason
deriving DecidableEq

/-- Python substring containment, `needle in hay`. -/
def isSub (needle hay : Str) : Bool := decide (needle <:+: hay)

/-- The acceptance filter of `run_discovery` (line 99): the lowercased URL
contains a keyword and does not end with a blacklisted extension. -/
def matchesFilter (cfg : DiscConfig) (url : Str) : Bool :=
  cfg.keywords.any (fun k => isSub k url) &&
  !(cfg.blacklist.any (fun e => e.isSuffixOf url))

/-- Processing of one body line of a 200 page (lines 96-104): skip
malformed records; lowercase the URL; apply the keyword/extension filter;
compute the signature (a parse error is caught by the bare `except` and
skips the record); append if the signature is unseen. -/
def processRec (cfg : DiscConfig) (st : DiscRun) : JsonRec → DiscRun
  | .malformed => st
  | .urlRec raw =>
    let url := lower raw
    if matchesFilter cfg url then
      match csigE url with
      | .error _ => st
      | .ok sig =>
        if sig ∈ st.seen then st
        else { st with
          corpus := st.corpus ++ [url]
          seen := sig :: st.seen
          totalSaved := st.totalSaved + 1 }
    else st

/-- Recording a page request (the ghost `requested` trace grows). -/
def reqStep (st : DiscRun) : DiscRun :=
  { st with requested := st.requested ++ [st.page] }

/-- Processing a 200 page body (lines 95-108): fold the per-record handler
over the body, advance the page counter, and update the in-memory progress
dict (line 108), which happens before the progress-file write. -/
def pageStep (cfg : DiscConfig) (q : Str) (st : DiscRun) (recs : List JsonRec) : DiscRun :=
  let stp := recs.foldl (processRec cfg) (reqStep st)
  let np := st.page + 1
  { stp with
    page := np
    progressMem := aset stp.progressMem q np
    processedPages := stp.processedPages ++ [st.page] }

/-- `pageStep` followed by a successful progress-file write (line 109). -/
def pageStepW (cfg : DiscConfig) (q : Str) (st : DiscRun) (recs : List JsonRec) : DiscRun :=
  let st2 := pageStep cfg q st recs
  { st2 with
    progressFile := aset st2.progressFile q (st.page + 1)
    progressWrites := st2.progressWrites ++ [st.page + 1] }

/-- The `while True` loop of `run_discovery`, driven by the page oracle
`pages` with a fuel bound (the real loop can spin forever on a persistent
non-200/non-404 status).  The record-limit check happens only at the top of
the loop, before fetching a page. -/
def discLoopP (cfg : DiscConfig) (q : Str) (limit : Int) (pages : Nat → PageResp) :
    Nat → DiscRun → DiscRun
  | 0, st => st
  | fuel + 1, st =>
    if limit > 0 ∧ (st.totalSaved : Int) ≥ limit then
      { st with stopped := some .limitReached }
    else
      match pages st.page with
      | .notFound => { reqStep st with stopped := some .exhausted }
      | .httpErr => discLoopP cfg q limit pages fuel (reqStep st)
      | .exn => { reqStep st with stopped := some .interrupted }
      | .pageOk recs wOk =>
        if wOk then discLoopP cfg q limit pages fuel (pageStepW cfg q st recs)
        else { pageStep cfg q st recs with stopped := some .interrupted }

/-- Rebuilding the signature set from the existing corpus file
(lines 72-76): `urlparse(line.strip().lower())` for every line, with no
exception handler, so a parse error propagates. -/
def rebuildSeen (corpus : List Str) : Except String (List Str) :=
  corpus.mapM (fun l => csigE (lower (strip l)))

/-- `run_discovery(query, record_limit)`: rebuild the signature set from
the corpus file, resume from the persisted page offset (default 0), and run
the pagination loop. -/
def run_discovery (cfg : DiscConfig) (q : Str) (limit : Int) (pages : Nat → PageResp)
    (fuel : Nat) (corpus0 : List Str) (prog0 : List (Str × Nat)) : Except String DiscRun :=
  (rebuildSeen corpus0).map (fun seen =>
    discLoopP cfg q limit pages fuel
      { corpus := corpus0
        seen := seen
        progressMem := prog0
        progressFile := prog0
        page := (alookup prog0 q).getD 0
        totalSaved := 0
        requested := []
        processedPages := []
        progressWrites := []
        stopped := none })

/-- One discovery run's upstream view and parameters, for chaining runs. -/
structure RunSpec where
  pages : Nat → PageResp
  limit : Int
  fuel : Nat

/-- A sequence of discovery runs over the same query, each reading the
corpus file and the persisted progress file left by the previous one. -/
def discChain (cfg : DiscConfig) (q : Str) :
    List RunSpec → List Str × List (Str × Nat) → Except String (List Str × List (Str × Nat))
  | [], fs => .ok fs
  | sp :: t, fs => do
    let st ← run_discovery cfg q sp.limit sp.pages sp.fuel fs.1 fs.2
    discChain cfg q t (st.corpus, st.progressFile)

/-- An HTML element as seen by the classifier: a tag and its attributes. -/
structure HtmlElem where
  tag : Str
  attrs : List (Str × Str)
deriving Repr, DecidableEq

/-- A parsed HTML document (the parser itself is an external collaborator). -/
abbrev Html := List HtmlElem

/-- Attribute lookup on an element. -/
def attrLookup : List (Str × Str) → Str → Option Str
  | [], _ => none
  | (k, v) :: t, a => if k = a then some v else attrLookup t a

/-- `soup.find('input', {'type': 'password'})` turned into a Bool: some
element has tag `input` and attribute `type` equal to `password`. -/
def hasPasswordInput (doc : Html) : Bool :=
  doc.any (fun e =>
    e.tag == "input".data && attrLookup e.attrs ("type".data) == some ("password".data))

/-- The outcome of one HTTP attempt inside `_check_url_life`: an exception
(timeout, connection error, parser error, ...) or a response with a status
code and a parsed body. -/
inductive Attempt where
  | exn : Attempt
  | resp (status : Nat) (doc : Html) : Attempt
deriving Repr, DecidableEq

/-- The classification tag for a portal page. -/
def PORTAL : Str := "PORTAL".data

/-- The classification tag for a live non-portal page. -/
def LIVE : Str := "LIVE".data

/-- The classification tag for an unreachable page. -/
def DEAD : Str := "DEAD".data

/-- Classification of a 200 body (lines 123-125 and 135-137). -/
def classifyDoc (doc : Html) : Str × Bool :=
  (if hasPasswordInput doc then PORTAL else LIVE, true)

/-- The proxy retry loop (lines 130-138): an exception continues to the
next attempt, a 200 classifies and returns, any other status also falls
through to the next attempt; exhaustion yields `(DEAD, false)`. -/
def proxyPhase : List Attempt → Str × Bool
  | [] => (DEAD, false)
  | .exn :: rest => proxyPhase rest
  | .resp s doc :: rest => if s = 200 then classifyDoc doc else proxyPhase rest

/-- What happens after the direct attempt did not return: up to 2 proxy
attempts when a proxy pool is configured, else `(DEAD, false)`. -/
def probeFallback (pool : List Str) (proxyAtt : List Attempt) : Str × Bool :=
  if pool.isEmpty then (DEAD, false) else proxyPhase (proxyAtt.take 2)

/-- The body of `_check_url_life` after the rate gate: direct attempt
first (a 200 classifies and returns immediately), then the proxy phase. -/
def probeCore (direct : Attempt) (pool : List Str) (proxyAtt : List Attempt) : Str × Bool :=
  match direct with
  | .exn => probeFallback pool proxyAtt
  | .resp s doc => if s = 200 then classifyDoc doc else probeFallback pool proxyAtt

/-- The attempts of a list that actually happen: everything up to and
including the first 200 response. -/
def upTo200 : List Attempt → List Attempt
  | [] => []
  | .exn :: rest => Attempt.exn :: upTo200 rest
  | .resp s doc :: rest =>
    if s = 200 then [Attempt.resp s doc] else Attempt.resp s doc :: upTo200 rest

/-- The attempts `_check_url_life` actually performs: the direct attempt,
then (when it did not return and a pool is configured) the proxy attempts
up to the first 200, bounded by 2. -/
def performedAttempts (direct : Attempt) (pool : List Str) (proxyAtt : List Attempt) :
    List Attempt :=
  direct ::
    match direct with
    | .exn => if pool.isEmpty then [] else upTo200 (proxyAtt.take 2)
    | .resp s _ =>
      if s = 200 then []
      else if pool.isEmpty then [] else upTo200 (proxyAtt.take 2)

/-- An attempt that returned a success (200) status. -/
def isSuccess : Attempt → Bool
  | .exn => false
  | .resp s _ => s == 200

/-- An attempt that returned 200 with a password-type input control. -/
def successPwd : Attempt → Bool
  | .exn => false
  | .resp s doc => s == 200 && hasPasswordInput doc

/-- An attempt that returned 200 without a password-type input control. -/
def successNoPwd : Attempt → Bool
  | .exn => false
  | .resp s doc => s == 200 && !hasPasswordInput doc

/-- `_check_url_life(target_url)` (lines 115-139).  The leading
`urlparse(target_url)` (line 116) runs outside every `try`, so its
`ValueError` propagates; everything after it degrades to `(DEAD, false)`. -/
def _check_url_life (target_url : Str) (pool : List Str) (direct : Attempt)
    (proxyAtt : List Attempt) : Except String (Str × Bool) :=
  (urlparseE target_url).map (fun _ => probeCore direct pool proxyAtt)

/-- Output streams a result handler writes to. -/
inductive WTarget where
  | wlog : WTarget
  | wgold : WTarget
  | wsubs : WTarget
deriving Repr, DecidableEq

/-- The collector state of one `run_validation` call: lines newly appended
to the three output files, the per-run seen-host set, the portal counter
and the progress-bar counter. -/
structure CState where
  logNew : List Str
  goldNew : List Str
  subsNew : List Str
  seenSubs : List Str
  portals : Nat
  processed : Nat
deriving Repr, DecidableEq

/-- The collector state at the start of a run (`seen_subs = set()`). -/
def initC : CState :=
  { logNew := [], goldNew := [], subsNew := [], seenSubs := [], portals := 0, processed := 0 }

/-- The tail of the `try` block (lines 190-192): append a PORTAL line to
the portal log and bump the counter; a raising gold write keeps the state
reached so far. -/
def portalStep (fails : WTarget → Str → Bool) (st : CState) (res : Str) (url : Str) :
    CState :=
  if res = PORTAL then
    if fails .wgold url then st
    else { st with goldNew := st.goldNew ++ [url], portals := st.portals + 1 }
  else st

/-- The body of the per-future `try` block (lines 182-193).  `fails t s`
tells whether writing line `s` to target `t` raises; a raise abandons the
rest of the block (the `except` at line 194 swallows it), keeping the
writes already made. -/
def collectCore (fails : WTarget → Str → Bool) (st : CState)
    (item : Str × Except Unit (Str × Bool)) : CState :=
  match item.2 with
  | .error _ => st
  | .ok (_, false) => st
  | .ok (res, true) =>
    let logLine := res ++ " | ".data ++ item.1
    if fails .wlog logLine then st
    else
      let st1 := { st with logNew := st.logNew ++ [logLine] }
      match urlparseE item.1 with
      | .error _ => st1
      | .ok p =>
        let domain := p.netloc
        if domain ∈ st1.seenSubs then portalStep fails st1 res item.1
        else
          if fails .wsubs domain then st1
          else
            portalStep fails
              { st1 with subsNew := st1.subsNew ++ [domain],
                         seenSubs := domain :: st1.seenSubs } res item.1

/-- One iteration of the `as_completed` loop: the `try` body, then the
`finally: pbar.update(1)`. -/
def collectStep (fails : WTarget → Str → Bool) (st : CState)
    (item : Str × Except Unit (Str × Bool)) : CState :=
  let s := collectCore fails st item
  { s with processed := s.processed + 1 }

/-- `line.split("|")[1]`: the text between the first and second `|`. -/
def field1 (l : Str) : Str :=
  ((l.dropWhile (fun c => c != '|')).tail).takeWhile (fun c => c != '|')

/-- Loading `ValidationHistory` from the classification log (lines
155-159): for every line containing `|`, the stripped second field. -/
def historyOf (lines : List Str) : List Str :=
  lines.filterMap (fun l => if '|' ∈ l then some (strip (field1 l)) else none)

/-- Helper for first-occurrence de-duplication. -/
def dedupFirstAux (seen : List Str) : List Str → List Str
  | [] => []
  | x :: t => if x ∈ seen then dedupFirstAux seen t else x :: dedupFirstAux (x :: seen) t

/-- `list(set(...))` of the corpus lines, modelled with one admissible
iteration order (first occurrence); theorems about arbitrary completion
order quantify at the collector level instead. -/
def dedupFirst (l : List Str) : List Str := dedupFirstAux [] l

/-- The four per-query files touched by validation. -/
structure VFiles where
  corpus : List Str
  history : List Str
  gold : List Str
  subs : List Str
deriving Repr, DecidableEq

/-- `run_validation(query)` (lines 148-197): load history, de-duplicate the
corpus, filter already-seen and noisy URLs, probe everything pending, and
append the collector output to the three files.  `probe u` is the value of
`fut.result()` for `u` — a classification pair, or an exception (also
covering a `ValueError` escaping `_check_url_life`). -/
def run_validation (noise : List Str) (probe : Str → Except Unit (Str × Bool))
    (fails : WTarget → Str → Bool) (files : VFiles) : VFiles :=
  let hist := historyOf files.history
  let allUrls := dedupFirst (files.corpus.filterMap (fun l =>
    let s := strip l
    if s.isEmpty then none else some s))
  let toValidate := allUrls.filter (fun u =>
    !(decide (u ∈ hist)) && !(noise.any (fun n => isSub n u)))
  if toValidate.isEmpty then files
  else
    let c := (toValidate.map (fun u => (u, probe u))).foldl (collectStep fails) initC
    { files with
      history := files.history ++ c.logNew
      gold := files.gold ++ c.goldNew
      subs := files.subs ++ c.subsNew }

/-- `run_validation` with the possibility that opening one of the output
files (line 176) raises: that is the only exception that can escape. -/
def run_validationE (openOk : Bool) (noise : List Str)
    (probe : Str → Except Unit (Str × Bool)) (fails : WTarget → Str → Bool)
    (files : VFiles) : Except String VFiles :=
  if openOk then .ok (run_validation noise probe fails files)
  else .error "cannot open output file"

/-- The shared state of `_smart_delay`: the `domain_locks` dict and the
current wall-clock reading, in abstract time units. -/
structure GateState where
  domainLocks : List (Str × ℚ)
  clock : ℚ

/-- One acquire call on the rate gate: `idle` is the (nonnegative) time
that passes before the critical section runs, `lag` the (nonnegative) time
between the end of the sleep and the second `time.time()` read. -/
structure DelayEvent where
  domain : Str
  idle : ℚ
  lag : ℚ

/-- `_smart_delay(domain)` (lines 141-146): read the last dispatch time
(default 0), sleep the positive remainder of the interval, then store the
current time — all under the one `lock_manager` critical section (the
sleep itself holds the lock, so concurrent acquires serialize and a
sequential trace models every interleaving).  Returns the new state and
the recorded dispatch time. -/
def _smart_delay (delay : ℚ) (st : GateState) (e : DelayEvent) : GateState × ℚ :=
  let t0 := st.clock + e.idle
  let last := (alookup st.domainLocks e.domain).getD 0
  let wait := delay - (t0 - last)
  let t1 := (if wait > 0 then t0 + wait else t0) + e.lag
  ({ domainLocks := aset st.domainLocks e.domain t1, clock := t1 }, t1)

/-- A serialized trace of acquire calls, returning the final state and the
recorded dispatch time of each call in order. -/
def gateRun (delay : ℚ) (st : GateState) : List DelayEvent → GateState × List (Str × ℚ)
  | [] => (st, [])
  | e :: t =>
    let p := _smart_delay delay st e
    let r := gateRun delay p.1 t
    (r.1, (e.domain, p.2) :: r.2)

/-- The dispatch times recorded for one domain, in order. -/
def recordedFor (d : Str) (l : List (Str × ℚ)) : List ℚ :=
  l.filterMap (fun p => if p.1 = d then some p.2 else none)

/-! ### Probe-layer lemmas -/

theorem proxyPhase_spec (l : List Attempt) :
    ((proxyPhase l).1 = PORTAL ↔ (upTo200 l).any successPwd = true) ∧
    ((proxyPhase l).1 = LIVE ↔ (upTo200 l).any successNoPwd = true) ∧
    (proxyPhase l = (DEAD, false) ↔ (upTo200 l).all (fun a => !isSuccess a) = true) ∧
    ((proxyPhase l).1 = DEAD ↔ (upTo200 l).all (fun a => !isSuccess a) = true) := by
  induction l with
  | nil =>
    refine ⟨?_, ?_, ?_, ?_⟩ <;> simp [proxyPhase, upTo200] <;> decide
  | cons a t ih =>
    cases a with
    | exn =>
      simpa [proxyPhase, upTo200, successPwd, successNoPwd, isSuccess] using ih
    | resp s doc =>
      by_cases hs : s = 200
      · subst hs
        by_cases hp : hasPasswordInput doc = true
        · refine ⟨?_, ?_, ?_, ?_⟩ <;>
            simp [proxyPhase, upTo200, classifyDoc, hp, successPwd, successNoPwd,
                  isSuccess] <;> decide
        · refine ⟨?_, ?_, ?_, ?_⟩ <;>
            simp [proxyPhase, upTo200, classifyDoc, hp, successPwd, successNoPwd,
                  isSuccess] <;> decide
      · simpa [proxyPhase, upTo200, hs, successPwd, successNoPwd, isSuccess] using ih

theorem probeCore_spec (direct : Attempt) (pool : List Str) (patt : List Attempt) :
    ((probeCore direct pool patt).1 = PORTAL ↔
      (performedAttempts direct pool patt).any successPwd = true) ∧
    ((probeCore direct pool patt).1 = LIVE ↔
      (performedAttempts direct pool patt).any successNoPwd = true) ∧
    (probeCore direct pool patt = (DEAD, false) ↔
      (performedAttempts direct pool patt).all (fun a => !isSuccess a) = true) ∧
    ((probeCore direct pool patt).1 = DEAD ↔
      (performedAttempts direct pool patt).all (fun a => !isSuccess a) = true) := by
  have hP := proxyPhase_spec (patt.take 2)
  cases direct with
  | exn =>
    by_cases hpool : pool.isEmpty = true
    · refine ⟨?_, ?_, ?_, ?_⟩ <;>
        simp [probeCore, probeFallback, performedAttempts, hpool, successPwd,
              successNoPwd, isSuccess] <;> decide
    · refine ⟨?_, ?_, ?_, ?_⟩ <;>
        simp [probeCore, probeFallback, performedAttempts, hpool, successPwd,
              successNoPwd, isSuccess, hP.1, hP.2.1, hP.2.2.1, hP.2.2.2]
  | resp s doc =>
    by_cases hs : s = 200
    · subst hs
      by_cases hp : hasPasswordInput doc = true
      · refine ⟨?_, ?_, ?_, ?_⟩ <;>
          simp [probeCore, performedAttempts, classifyDoc, hp, successPwd,
                successNoPwd, isSuccess] <;> decide
      · refine ⟨?_, ?_, ?_, ?_⟩ <;>
          simp [probeCore, performedAttempts, classifyDoc, hp, successPwd,
                successNoPwd, isSuccess] <;> decide
    · by_cases hpool : pool.isEmpty = true
      · refine ⟨?_, ?_, ?_, ?_⟩ <;>
          simp [probeCore, probeFallback, performedAttempts, hpool, hs, successPwd,
                successNoPwd, isSuccess] <;> decide
      · refine ⟨?_, ?_, ?_, ?_⟩ <;>
          simp [probeCore, probeFallback, performedAttempts, hpool, hs, successPwd,
                successNoPwd, isSuccess, hP.1, hP.2.1, hP.2.2.1, hP.2.2.2]

/-! ### Claims C2 and C3 -/

/-- C3: for every probed URL the classification is PORTAL iff some
performed attempt returned a 200 response whose parsed HTML contains an
input element with type attribute "password" (so PORTAL supersedes LIVE);
LIVE iff a 200 response was obtained without such a control; DEAD iff no
performed attempt (direct or proxy) returned a success status. -/
theorem claim_C3_classification (direct : Attempt) (pool : List Str) (patt : List Attempt) :
    ((probeCore direct pool patt).1 = PORTAL ↔
      (performedAttempts direct pool patt).any successPwd = true) ∧
    ((probeCore direct pool patt).1 = LIVE ↔
      (performedAttempts direct pool patt).any successNoPwd = true) ∧
    ((probeCore direct pool patt).1 = DEAD ↔
      (performedAttempts direct pool patt).all (fun a => !isSuccess a) = true) :=
  ⟨(probeCore_spec direct pool patt).1, (probeCore_spec direct pool patt).2.1,
   (probeCore_spec direct pool patt).2.2.2⟩

/-- Decidable equality of `Except` values, used to evaluate the model on
concrete inputs. -/
instance exceptDecEq {ε α : Type} [DecidableEq ε] [DecidableEq α] :
    DecidableEq (Except ε α) := fun x y =>
  match x, y with
  | .ok a, .ok b =>
    if h : a = b then isTrue (by rw [h]) else isFalse (by intro hh; cases hh; exact h rfl)
  | .error a, .error b =>
    if h : a = b then isTrue (by rw [h]) else isFalse (by intro hh; cases hh; exact h rfl)
  | .ok _, .error _ => isFalse (by intro hh; cases hh)
  | .error _, .ok _ => isFalse (by intro hh; cases hh)

/-- C2 counterexample: `_check_url_life` calls `urlparse(target_url)`
outside every `try` (line 116), and `urlparse` raises `ValueError` on an
authority with an unbalanced bracket, so the probe does raise past its
boundary for such an input, contradicting the claim as stated. -/
theorem claim_C2_counterexample :
    _check_url_life ("http://[x.com/login".data) [] Attempt.exn [] =
      Except.error "Invalid IPv6 URL" := by rfl

/-- C2 (amended): for every input URL that `urlparse` accepts (brackets in
the authority balanced), probe never raises past its boundary, and when no
performed attempt returns a 200 status the result degrades to
`(DEAD, false)`. -/
theorem claim_C2_amended (url : Str) (pool : List Str) (direct : Attempt)
    (patt : List Attempt) (p : ParseResult) (h : urlparseE url = .ok p) :
    _check_url_life url pool direct patt = .ok (probeCore direct pool patt) ∧
    ((performedAttempts direct pool patt).all (fun a => !isSuccess a) = true →
      _check_url_life url pool direct patt = .ok (DEAD, false)) := by
  constructor
  · simp [_check_url_life, h, Except.map]
  · intro hall
    have hd := (probeCore_spec direct pool patt).2.2.1.mpr hall
    simp [_check_url_life, h, hd, Except.map]

/-- Witness for C2 (amended) at a concrete parseable URL with a failing
direct attempt and no proxies. -/
theorem claim_C2_witness :
    urlparseE ("http://a.com/login".data) =
      .ok ⟨"http".data, "a.com".data, "/login".data, [], [], []⟩ ∧
    _check_url_life ("http://a.com/login".data) [] Attempt.exn [] = .ok (DEAD, false) :=
  ⟨by decide,
   (claim_C2_amended ("http://a.com/login".data) [] Attempt.exn []
      ⟨"http".data, "a.com".data, "/login".data, [], [], []⟩ (by decide)).2 (by decide)⟩

/-! ### Rate-gate lemmas (C8) -/

theorem alookup_aset_same {α : Type} (l : List (Str × α)) (q : Str) (n : α) :
    alookup (aset l q n) q = some n := by
  induction l with
  | nil => simp [aset, alookup]
  | cons kv t ih =>
    obtain ⟨k, v⟩ := kv
    by_cases h : k = q
    · simp [aset, alookup, h]
    · simp [aset, alookup, h, ih]

theorem alookup_aset_other {α : Type} (l : List (Str × α)) (q q' : Str) (n : α)
    (h : q ≠ q') : alookup (aset l q n) q' = alookup l q' := by
  induction l with
  | nil => simp [aset, alookup, h]
  | cons kv t ih =>
    obtain ⟨k, v⟩ := kv
    by_cases hk : k = q
    · subst hk; simp [aset, alookup, h, ih]
    · by_cases hk' : k = q'
      · simp [aset, alookup, hk, hk', Ne.symm h]
      · simp [aset, alookup, hk, hk', ih]

theorem _smart_delay_gap (delay : ℚ) (st : GateState) (e : DelayEvent)
    (hl : 0 ≤ e.lag) :
    (alookup st.domainLocks e.domain).getD 0 + delay ≤ (_smart_delay delay st e).2 := by
  unfold _smart_delay
  simp only
  by_cases hw :
      delay - (st.clock + e.idle - (alookup st.domainLocks e.domain).getD 0) > 0
  · rw [if_pos hw]; linarith
  · rw [if_neg hw]; push_neg at hw; linarith

theorem _smart_delay_ge_clock (delay : ℚ) (st : GateState) (e : DelayEvent)
    (hi : 0 ≤ e.idle) (hl : 0 ≤ e.lag) :
    st.clock ≤ (_smart_delay delay st e).2 := by
  unfold _smart_delay
  simp only
  by_cases hw :
      delay - (st.clock + e.idle - (alookup st.domainLocks e.domain).getD 0) > 0
  · rw [if_pos hw]; linarith
  · rw [if_neg hw]; linarith

theorem _smart_delay_state (delay : ℚ) (st : GateState) (e : DelayEvent) :
    (_smart_delay delay st e).1.clock = (_smart_delay delay st e).2 ∧
    (_smart_delay delay st e).1.domainLocks =
      aset st.domainLocks e.domain (_smart_delay delay st e).2 := ⟨rfl, rfl⟩

theorem gateRun_chain (delay : ℚ) (d : Str) :
    ∀ (events : List DelayEvent) (st : GateState),
      (∀ e ∈ events, 0 ≤ e.idle ∧ 0 ≤ e.lag) →
      List.Chain' (fun a b => a + delay ≤ b)
        (((alookup st.domainLocks d).getD 0) :: recordedFor d (gateRun delay st events).2) := by
  intro events
  induction events with
  | nil => intro st _; simp [gateRun, recordedFor]
  | cons e t ih =>
    intro st h
    have he := h e (by simp)
    have ht : ∀ x ∈ t, 0 ≤ x.idle ∧ 0 ≤ x.lag := fun x hx => h x (by simp [hx])
    have hstep := _smart_delay_state delay st e
    by_cases hd : e.domain = d
    · have hrec : recordedFor d (gateRun delay st (e :: t)).2 =
          (_smart_delay delay st e).2 ::
            recordedFor d (gateRun delay (_smart_delay delay st e).1 t).2 := by
        simp [gateRun, recordedFor, hd]
      rw [hrec, List.chain'_cons]
      constructor
      · have := _smart_delay_gap delay st e he.2
        rw [hd] at this; exact this
      · have hih := ih (_smart_delay delay st e).1 ht
        rw [hstep.2, hd, alookup_aset_same] at hih
        simpa using hih
    · have hrec : recordedFor d (gateRun delay st (e :: t)).2 =
          recordedFor d (gateRun delay (_smart_delay delay st e).1 t).2 := by
        simp [gateRun, recordedFor, hd]
      rw [hrec]
      have hih := ih (_smart_delay delay st e).1 ht
      rw [hstep.2, alookup_aset_other _ _ _ _ hd] at hih
      exact hih

theorem gateRun_clock_lb (delay : ℚ) (d : Str) :
    ∀ (events : List DelayEvent) (st : GateState),
      events ≠ [] →
      (∀ e ∈ events, e.domain = d ∧ 0 ≤ e.idle ∧ 0 ≤ e.lag) →
      (alookup st.domainLocks d).getD 0 + delay * events.length ≤
        (gateRun delay st events).1.clock := by
  intro events
  induction events with
  | nil => intro st h; exact absurd rfl h
  | cons e t ih =>
    intro st _ h
    have he := h e (by simp)
    have hgap := _smart_delay_gap delay st e he.2.2
    have hstep := _smart_delay_state delay st e
    rw [he.1] at hgap
    cases t with
    | nil =>
      have hg1 : (gateRun delay st [e]).1.clock = (_smart_delay delay st e).2 := by
        simp [gateRun, hstep.1]
      rw [hg1]
      norm_num
      linarith
    | cons e2 t2 =>
      have ht : ∀ x ∈ e2 :: t2, x.domain = d ∧ 0 ≤ x.idle ∧ 0 ≤ x.lag :=
        fun x hx => h x (by simp at hx; rcases hx with hx | hx <;> simp [hx])
      have hih := ih (_smart_delay delay st e).1 (by simp) ht
      rw [hstep.2, he.1, alookup_aset_same] at hih
      have hfin : (gateRun delay st (e :: e2 :: t2)).1 =
          (gateRun delay (_smart_delay delay st e).1 (e2 :: t2)).1 := by
        simp [gateRun]
      rw [hfin]
      simp only [Option.getD_some, List.length_cons] at hih ⊢
      push_cast at hih ⊢
      linarith

theorem gateRun_elapsed (delay : ℚ) (d : Str) (events : List DelayEvent) (st : GateState)
    (hne : events ≠ []) (h : ∀ e ∈ events, e.domain = d ∧ 0 ≤ e.idle ∧ 0 ≤ e.lag) :
    st.clock + delay * ((events.length : ℚ) - 1) ≤ (gateRun delay st events).1.clock := by
  cases events with
  | nil => exact absurd rfl hne
  | cons e t =>
    have he := h e (by simp)
    have hclk := _smart_delay_ge_clock delay st e he.2.1 he.2.2
    have hstep := _smart_delay_state delay st e
    cases t with
    | nil =>
      have hg1 : (gateRun delay st [e]).1.clock = (_smart_delay delay st e).2 := by
        simp [gateRun, hstep.1]
      rw [hg1]
      norm_num
      linarith
    | cons e2 t2 =>
      have ht : ∀ x ∈ e2 :: t2, x.domain = d ∧ 0 ≤ x.idle ∧ 0 ≤ x.lag :=
        fun x hx => h x (by simp at hx; rcases hx with hx | hx <;> simp [hx])
      have hih := gateRun_clock_lb delay d (e2 :: t2) (_smart_delay delay st e).1
        (by simp) ht
      rw [hstep.2, he.1, alookup_aset_same] at hih
      have hfin : (gateRun delay st (e :: e2 :: t2)).1 =
          (gateRun delay (_smart_delay delay st e).1 (e2 :: t2)).1 := by
        simp [gateRun]
      rw [hfin]
      simp only [Option.getD_some, List.length_cons] at hih ⊢
      push_cast at hih ⊢
      linarith

/-! ### Claim C8 -/

/-- C8: in any serialized trace of rate-gate acquires (the sleep happens
inside the one critical section, so every interleaving serializes), the
recorded dispatch times of each host are at least `delay` apart, and five
calls for one host starting from any state take at least `4 * delay`
(so at least 4.0 time units with the default interval of 1.0). -/
theorem claim_C8_rate_gate (delay : ℚ) (d : Str) (events : List DelayEvent)
    (st : GateState) (h : ∀ e ∈ events, 0 ≤ e.idle ∧ 0 ≤ e.lag) :
    List.Chain' (fun a b => a + delay ≤ b) (recordedFor d (gateRun delay st events).2) ∧
    ((∀ e ∈ events, e.domain = d) → events.length = 5 → delay = 1 →
      st.clock + 4 ≤ (gateRun delay st events).1.clock) := by
  constructor
  · exact (gateRun_chain delay d events st h).tail
  · intro hd hlen hdel
    subst hdel
    have hne : events ≠ [] := by
      intro he; rw [he] at hlen; simp at hlen
    have := gateRun_elapsed 1 d events st hne
      (fun e he => ⟨hd e he, (h e he).1, (h e he).2⟩)
    rw [hlen] at this
    norm_num at this
    linarith

/-- The host used by the C8 witness. -/
def hostD : Str := "h".data

/-- Five acquire events for one host with no scheduling overhead. -/
def gateEvents5 : List DelayEvent :=
  [⟨hostD, 0, 0⟩, ⟨hostD, 0, 0⟩, ⟨hostD, 0, 0⟩, ⟨hostD, 0, 0⟩, ⟨hostD, 0, 0⟩]

/-- Witness for C8: five sequential acquires for one host with interval 1
starting at clock 0 finish at clock at least 4. -/
theorem claim_C8_witness :
    (∀ e ∈ gateEvents5, 0 ≤ e.idle ∧ 0 ≤ e.lag) ∧
    (0 : ℚ) + 4 ≤ (gateRun 1 ⟨[], 0⟩ gateEvents5).1.clock := by
  have hh : ∀ e ∈ gateEvents5, 0 ≤ e.idle ∧ 0 ≤ e.lag := by
    intro e he
    simp [gateEvents5] at he
    rcases he with rfl | rfl | rfl | rfl | rfl
    all_goals exact ⟨le_refl 0, le_refl 0⟩
  refine ⟨hh, ?_⟩
  have := (claim_C8_rate_gate 1 hostD gateEvents5 ⟨[], 0⟩ hh).2 ?_ rfl rfl
  · simpa using this
  · intro e he
    simp [gateEvents5] at he
    rcases he with rfl | rfl | rfl | rfl | rfl
    all_goals rfl

/-! ### Discovery lemmas, claims C9 and C10 -/

theorem processRec_fields (cfg : DiscConfig) (st : DiscRun) (r : JsonRec) :
    (processRec cfg st r).page = st.page ∧
    (processRec cfg st r).requested = st.requested ∧
    (processRec cfg st r).processedPages = st.processedPages ∧
    (processRec cfg st r).progressWrites = st.progressWrites ∧
    (processRec cfg st r).progressMem = st.progressMem ∧
    (processRec cfg st r).progressFile = st.progressFile ∧
    (processRec cfg st r).stopped = st.stopped := by
  cases r with
  | malformed => exact ⟨rfl, rfl, rfl, rfl, rfl, rfl, rfl⟩
  | urlRec raw =>
    simp only [processRec]
    split
    · split
      · exact ⟨rfl, rfl, rfl, rfl, rfl, rfl, rfl⟩
      · split
        · exact ⟨rfl, rfl, rfl, rfl, rfl, rfl, rfl⟩
        · exact ⟨rfl, rfl, rfl, rfl, rfl, rfl, rfl⟩
    · exact ⟨rfl, rfl, rfl, rfl, rfl, rfl, rfl⟩

theorem foldl_processRec_fields (cfg : DiscConfig) (recs : List JsonRec) :
    ∀ st : DiscRun,
    (recs.foldl (processRec cfg) st).page = st.page ∧
    (recs.foldl (processRec cfg) st).requested = st.requested ∧
    (recs.foldl (processRec cfg) st).processedPages = st.processedPages ∧
    (recs.foldl (processRec cfg) st).progressWrites = st.progressWrites ∧
    (recs.foldl (processRec cfg) st).progressMem = st.progressMem ∧
    (recs.foldl (processRec cfg) st).progressFile = st.progressFile ∧
    (recs.foldl (processRec cfg) st).stopped = st.stopped := by
  induction recs with
  | nil => intro st; exact ⟨rfl, rfl, rfl, rfl, rfl, rfl, rfl⟩
  | cons r t ih =>
    intro st
    have h1 := processRec_fields cfg st r
    have h2 := ih (processRec cfg st r)
    simp only [List.foldl_cons]
    exact ⟨h2.1.trans h1.1, h2.2.1.trans h1.2.1, h2.2.2.1.trans h1.2.2.1,
           h2.2.2.2.1.trans h1.2.2.2.1, h2.2.2.2.2.1.trans h1.2.2.2.2.1,
           h2.2.2.2.2.2.1.trans h1.2.2.2.2.2.1, h2.2.2.2.2.2.2.trans h1.2.2.2.2.2.2⟩

/-- C9: a discovered URL is appended to the corpus iff, after lowercasing,
it contains a configured keyword substring, does not end with a configured
blocked extension, and its signature is unseen; in particular (with the
program's configuration) `https://a.com/login.pdf` and `https://a.com/about`
are rejected. -/
theorem claim_C9_filter (cfg : DiscConfig) (st : DiscRun) (raw sig : Str)
    (hsig : csigE (lower raw) = .ok sig) :
    ((processRec cfg st (.urlRec raw)).corpus = st.corpus ++ [lower raw] ↔
      (cfg.keywords.any (fun k => isSub k (lower raw)) = true ∧
       cfg.blacklist.any (fun e => e.isSuffixOf (lower raw)) = false ∧
       sig ∉ st.seen)) ∧
    (processRec defaultCfg st (.urlRec ("https://a.com/login.pdf".data)) = st) ∧
    (processRec defaultCfg st (.urlRec ("https://a.com/about".data)) = st) := by
  refine ⟨?_, ?_, ?_⟩
  · by_cases hm : matchesFilter cfg (lower raw) = true
    · simp only [processRec, hm, if_true, hsig]
      by_cases hs : sig ∈ st.seen
      · simp only [hs, if_true]
        constructor
        · intro h; exact absurd (congrArg List.length h) (by simp)
        · intro h; exact absurd trivial h.2.2
      · simp only [hs, if_false]
        have hm' := hm
        simp only [matchesFilter, Bool.and_eq_true, Bool.not_eq_true'] at hm'
        simp [hm'.1, hm'.2, hs]
    · simp only [processRec, hm, if_false]
      have hm' := hm
      simp only [matchesFilter, Bool.and_eq_true, Bool.not_eq_true', not_and] at hm'
      constructor
      · intro h; exact absurd (congrArg List.length h) (by simp)
      · intro h
        exact absurd (h.2.1) (by simp [hm' h.1])
  · simp only [processRec]
    rw [if_neg (by decide)]
  · simp only [processRec]
    rw [if_neg (by decide)]

/-- Witness for C9 at a concrete accepted URL. -/
theorem claim_C9_witness :
    csigE (lower ("http://c.com/portal".data)) = .ok ("c.com/portal".data) ∧
    (processRec defaultCfg
        ⟨[], [], [], [], 0, 0, [], [], [], none⟩ (.urlRec ("http://c.com/portal".data))).corpus =
      [] ++ [lower ("http://c.com/portal".data)] :=
  ⟨by decide,
   (claim_C9_filter defaultCfg ⟨[], [], [], [], 0, 0, [], [], [], none⟩
      ("http://c.com/portal".data) ("c.com/portal".data) (by decide)).1.mpr
     ⟨by decide, by decide, by decide⟩⟩

/-- The upstream for the C10 scenario: one page with two matching URLs. -/
def c10pages : Nat → PageResp := fun n =>
  if n = 0 then
    .pageOk [.urlRec ("http://a.com/login".data), .urlRec ("http://b.com/admin".data)] true
  else .notFound

/-- C10: the record limit is consulted only at the top of the loop, before
fetching a page: `processRec` appends every matching unseen URL no matter
how large the saved counter already is, and a concrete run with
`record_limit = 1` over a page with two matches appends 2 lines. -/
theorem claim_C10_limit_checked_per_page (cfg : DiscConfig) (st : DiscRun) (raw sig : Str)
    (hsig : csigE (lower raw) = .ok sig) (hm : matchesFilter cfg (lower raw) = true)
    (hns : sig ∉ st.seen) :
    (processRec cfg st (.urlRec raw)).corpus = st.corpus ++ [lower raw] ∧
    (run_discovery defaultCfg ("q".data) 1 c10pages 3 [] []).map
      (fun s => s.corpus.length) = .ok 2 := by
  constructor
  · simp only [processRec, hm, if_true, hsig, hns, if_false]
  · decide

/-- Witness for C10: a URL is appended by `processRec` even when the saved
counter (99) already exceeds any record limit. -/
theorem claim_C10_witness :
    csigE (lower ("http://c.com/portal".data)) = .ok ("c.com/portal".data) ∧
    matchesFilter defaultCfg (lower ("http://c.com/portal".data)) = true ∧
    (processRec defaultCfg
        ⟨[], [], [], [], 0, 99, [], [], [], none⟩ (.urlRec ("http://c.com/portal".data))).corpus =
      [] ++ [lower ("http://c.com/portal".data)] :=
  ⟨by decide, by decide,
   (claim_C10_limit_checked_per_page defaultCfg ⟨[], [], [], [], 0, 99, [], [], [], none⟩
      ("http://c.com/portal".data) ("c.com/portal".data) (by decide) (by decide)
      (by decide)).1⟩


/-! ### Discovery loop equations and claim C6 -/

theorem discLoopP_zero (cfg : DiscConfig) (q : Str) (limit : Int)
    (pages : Nat → PageResp) (st : DiscRun) :
    discLoopP cfg q limit pages 0 st = st := rfl

theorem discLoopP_succ_limit (cfg : DiscConfig) (q : Str) (limit : Int)
    (pages : Nat → PageResp) (n : Nat) (st : DiscRun)
    (hl : limit > 0 ∧ (st.totalSaved : Int) ≥ limit) :
    discLoopP cfg q limit pages (n + 1) st = { st with stopped := some .limitReached } := by
  simp only [discLoopP]
  rw [if_pos hl]

theorem discLoopP_succ_notFound (cfg : DiscConfig) (q : Str) (limit : Int)
    (pages : Nat → PageResp) (n : Nat) (st : DiscRun)
    (hl : ¬(limit > 0 ∧ (st.totalSaved : Int) ≥ limit)) (hp : pages st.page = .notFound) :
    discLoopP cfg q limit pages (n + 1) st =
      { reqStep st with stopped := some .exhausted } := by
  simp only [discLoopP]
  rw [if_neg hl, hp]

theorem discLoopP_succ_httpErr (cfg : DiscConfig) (q : Str) (limit : Int)
    (pages : Nat → PageResp) (n : Nat) (st : DiscRun)
    (hl : ¬(limit > 0 ∧ (st.totalSaved : Int) ≥ limit)) (hp : pages st.page = .httpErr) :
    discLoopP cfg q limit pages (n + 1) st =
      discLoopP cfg q limit pages n (reqStep st) := by
  simp only [discLoopP]
  rw [if_neg hl, hp]

theorem discLoopP_succ_exn (cfg : DiscConfig) (q : Str) (limit : Int)
    (pages : Nat → PageResp) (n : Nat) (st : DiscRun)
    (hl : ¬(limit > 0 ∧ (st.totalSaved : Int) ≥ limit)) (hp : pages st.page = .exn) :
    discLoopP cfg q limit pages (n + 1) st =
      { reqStep st with stopped := some .interrupted } := by
  simp only [discLoopP]
  rw [if_neg hl, hp]

theorem discLoopP_succ_pageOk_true (cfg : DiscConfig) (q : Str) (limit : Int)
    (pages : Nat → PageResp) (n : Nat) (st : DiscRun) (recs : List JsonRec)
    (hl : ¬(limit > 0 ∧ (st.totalSaved : Int) ≥ limit))
    (hp : pages st.page = .pageOk recs true) :
    discLoopP cfg q limit pages (n + 1) st =
      discLoopP cfg q limit pages n (pageStepW cfg q st recs) := by
  simp only [discLoopP]
  rw [if_neg hl, hp]
  rfl

theorem discLoopP_succ_pageOk_false (cfg : DiscConfig) (q : Str) (limit : Int)
    (pages : Nat → PageResp) (n : Nat) (st : DiscRun) (recs : List JsonRec)
    (hl : ¬(limit > 0 ∧ (st.totalSaved : Int) ≥ limit))
    (hp : pages st.page = .pageOk recs false) :
    discLoopP cfg q limit pages (n + 1) st =
      { pageStep cfg q st recs with stopped := some .interrupted } := by
  simp only [discLoopP]
  rw [if_neg hl, hp]
  rfl

theorem pageStep_fields (cfg : DiscConfig) (q : Str) (st : DiscRun) (recs : List JsonRec) :
    (pageStep cfg q st recs).requested = st.requested ++ [st.page] ∧
    (pageStep cfg q st recs).page = st.page + 1 ∧
    (pageStep cfg q st recs).processedPages = st.processedPages ++ [st.page] ∧
    (pageStep cfg q st recs).progressWrites = st.progressWrites ∧
    (pageStep cfg q st recs).progressFile = st.progressFile ∧
    (pageStep cfg q st recs).stopped = st.stopped := by
  have hf := foldl_processRec_fields cfg recs (reqStep st)
  refine ⟨?_, rfl, ?_, ?_, ?_, ?_⟩
  · show (List.foldl (processRec cfg) (reqStep st) recs).requested = st.requested ++ [st.page]
    rw [hf.2.1]
    rfl
  · show (List.foldl (processRec cfg) (reqStep st) recs).processedPages ++ [st.page] =
      st.processedPages ++ [st.page]
    rw [hf.2.2.1]
    rfl
  · show (List.foldl (processRec cfg) (reqStep st) recs).progressWrites = st.progressWrites
    rw [hf.2.2.2.1]
    rfl
  · show (List.foldl (processRec cfg) (reqStep st) recs).progressFile = st.progressFile
    rw [hf.2.2.2.2.2.1]
    rfl
  · show (List.foldl (processRec cfg) (reqStep st) recs).stopped = st.stopped
    rw [hf.2.2.2.2.2.2]
    rfl

theorem pageStepW_fields (cfg : DiscConfig) (q : Str) (st : DiscRun) (recs : List JsonRec) :
    (pageStepW cfg q st recs).requested = st.requested ++ [st.page] ∧
    (pageStepW cfg q st recs).page = st.page + 1 ∧
    (pageStepW cfg q st recs).processedPages = st.processedPages ++ [st.page] ∧
    (pageStepW cfg q st recs).progressWrites = st.progressWrites ++ [st.page + 1] ∧
    (pageStepW cfg q st recs).progressFile = aset st.progressFile q (st.page + 1) ∧
    (pageStepW cfg q st recs).stopped = st.stopped := by
  have hp := pageStep_fields cfg q st recs
  refine ⟨hp.1, hp.2.1, hp.2.2.1, ?_, ?_, hp.2.2.2.2.2⟩
  · show (pageStep cfg q st recs).progressWrites ++ [st.page + 1] =
      st.progressWrites ++ [st.page + 1]
    rw [hp.2.2.2.1]
  · show aset (pageStep cfg q st recs).progressFile q (st.page + 1) =
      aset st.progressFile q (st.page + 1)
    rw [hp.2.2.2.2.1]

theorem discLoopP_requested (cfg : DiscConfig) (q : Str) (limit : Int)
    (pages : Nat → PageResp) :
    ∀ (fuel : Nat) (st : DiscRun),
      ∃ l, (discLoopP cfg q limit pages fuel st).requested = st.requested ++ l ∧
        (∀ p, l.head? = some p → p = st.page) := by
  intro fuel
  induction fuel with
  | zero =>
    intro st
    exact ⟨[], by simp [discLoopP_zero], by intro p h; simp at h⟩
  | succ n ih =>
    intro st
    by_cases hl : limit > 0 ∧ (st.totalSaved : Int) ≥ limit
    · rw [discLoopP_succ_limit cfg q limit pages n st hl]
      exact ⟨[], by simp, by intro p h; simp at h⟩
    · cases hp : pages st.page with
      | notFound =>
        rw [discLoopP_succ_notFound cfg q limit pages n st hl hp]
        refine ⟨[st.page], by simp [reqStep], ?_⟩
        intro p h; simp at h; exact h.symm
      | exn =>
        rw [discLoopP_succ_exn cfg q limit pages n st hl hp]
        refine ⟨[st.page], by simp [reqStep], ?_⟩
        intro p h; simp at h; exact h.symm
      | httpErr =>
        rw [discLoopP_succ_httpErr cfg q limit pages n st hl hp]
        obtain ⟨l, hl1, _⟩ := ih (reqStep st)
        refine ⟨st.page :: l, ?_, ?_⟩
        · rw [hl1]; simp [reqStep]
        · intro p h; simp at h; exact h.symm
      | pageOk recs wOk =>
        cases wOk with
        | true =>
          rw [discLoopP_succ_pageOk_true cfg q limit pages n st recs hl hp]
          obtain ⟨l, hl1, _⟩ := ih (pageStepW cfg q st recs)
          refine ⟨st.page :: l, ?_, ?_⟩
          · rw [hl1, (pageStepW_fields cfg q st recs).1]; simp
          · intro p h; simp at h; exact h.symm
        | false =>
          rw [discLoopP_succ_pageOk_false cfg q limit pages n st recs hl hp]
          refine ⟨[st.page], ?_, ?_⟩
          · show (pageStep cfg q st recs).requested = st.requested ++ [st.page]
            exact (pageStep_fields cfg q st recs).1
          · intro p h; simp at h; exact h.symm

theorem discLoopP_writes (cfg : DiscConfig) (q : Str) (limit : Int)
    (pages : Nat → PageResp)
    (hw : ∀ p recs, pages p ≠ PageResp.pageOk recs false) :
    ∀ (fuel : Nat) (st : DiscRun),
      st.progressWrites = st.processedPages.map (fun x => x + 1) →
      (discLoopP cfg q limit pages fuel st).progressWrites =
        (discLoopP cfg q limit pages fuel st).processedPages.map (fun x => x + 1) := by
  intro fuel
  induction fuel with
  | zero => intro st h; simpa [discLoopP_zero] using h
  | succ n ih =>
    intro st h
    by_cases hl : limit > 0 ∧ (st.totalSaved : Int) ≥ limit
    · rw [discLoopP_succ_limit cfg q limit pages n st hl]; simpa using h
    · cases hp : pages st.page with
      | notFound =>
        rw [discLoopP_succ_notFound cfg q limit pages n st hl hp]
        simpa [reqStep] using h
      | exn =>
        rw [discLoopP_succ_exn cfg q limit pages n st hl hp]
        simpa [reqStep] using h
      | httpErr =>
        rw [discLoopP_succ_httpErr cfg q limit pages n st hl hp]
        exact ih (reqStep st) (by simpa [reqStep] using h)
      | pageOk recs wOk =>
        cases wOk with
        | false => exact absurd hp (hw st.page recs)
        | true =>
          rw [discLoopP_succ_pageOk_true cfg q limit pages n st recs hl hp]
          apply ih
          have hpw := pageStepW_fields cfg q st recs
          rw [hpw.2.2.2.1, hpw.2.2.1, h]
          simp

/-- C6: a discovery run requests the persisted page offset first (0 when
no state exists for the query), and — as long as the progress-file writes
succeed — after each fully processed page the persisted offset is set to
that page plus one, in order. -/
theorem claim_C6_resumability (cfg : DiscConfig) (q : Str) (limit : Int)
    (pages : Nat → PageResp) (fuel : Nat) (corpus0 : List Str)
    (prog0 : List (Str × Nat)) (st : DiscRun)
    (hrun : run_discovery cfg q limit pages fuel corpus0 prog0 = .ok st) :
    (∀ p, st.requested.head? = some p → p = (alookup prog0 q).getD 0) ∧
    ((∀ p recs, pages p ≠ PageResp.pageOk recs false) →
      st.progressWrites = st.processedPages.map (fun x => x + 1)) := by
  unfold run_discovery at hrun
  cases hre : rebuildSeen corpus0 with
  | error e => rw [hre] at hrun; simp [Except.map] at hrun
  | ok seen =>
    rw [hre] at hrun
    simp only [Except.map] at hrun
    injection hrun with hrun
    subst hrun
    constructor
    · intro p hp
      obtain ⟨l, hl1, hl2⟩ := discLoopP_requested cfg q limit pages fuel
        { corpus := corpus0, seen := seen, progressMem := prog0, progressFile := prog0,
          page := (alookup prog0 q).getD 0, totalSaved := 0,
          requested := [], processedPages := [], progressWrites := [], stopped := none }
      rw [hl1] at hp
      simp only [List.nil_append] at hp
      exact hl2 p hp
    · intro hw
      exact discLoopP_writes cfg q limit pages hw fuel _ (by simp)

/-- The concrete final state of the C6 witness run. -/
def st6val : DiscRun :=
  ⟨[], [], [("q".data, 3)], [("q".data, 3)], 3, 0, [3], [], [], some .exhausted⟩

/-- Witness for C6: with persisted offset 3 for the query, the next run
requests page 3 first. -/
theorem claim_C6_witness :
    run_discovery defaultCfg ("q".data) 0 (fun _ => PageResp.notFound) 2 []
      [("q".data, 3)] = .ok st6val ∧
    st6val.requested.head? = some ((alookup [("q".data, 3)] ("q".data)).getD 0) ∧
    st6val.progressWrites = st6val.processedPages.map (fun x => x + 1) := by
  have hrun : run_discovery defaultCfg ("q".data) 0 (fun _ => PageResp.notFound) 2 []
      [("q".data, 3)] = .ok st6val := by decide
  have h := claim_C6_resumability defaultCfg ("q".data) 0 (fun _ => PageResp.notFound) 2 []
      [("q".data, 3)] st6val hrun
  have h1 : (3 : Nat) = (alookup [("q".data, 3)] ("q".data)).getD 0 :=
    h.1 3 (by decide)
  refine ⟨hrun, ?_, h.2 (fun p recs hh => PageResp.noConfusion hh)⟩
  rw [← h1]
  decide

/-! ### Claim C7 -/

theorem discLoopP_exhausted (cfg : DiscConfig) (q : Str) (limit : Int)
    (pages : Nat → PageResp) :
    ∀ (fuel : Nat) (st : DiscRun), st.stopped = none →
      (discLoopP cfg q limit pages fuel st).stopped = some .exhausted →
      pages (discLoopP cfg q limit pages fuel st).page = .notFound ∧
      (alookup (discLoopP cfg q limit pages fuel st).progressFile q =
          some (discLoopP cfg q limit pages fuel st).page ∨
        ((discLoopP cfg q limit pages fuel st).progressFile = st.progressFile ∧
         (discLoopP cfg q limit pages fuel st).page = st.page)) := by
  intro fuel
  induction fuel with
  | zero =>
    intro st h0 hs
    rw [discLoopP_zero] at hs
    rw [h0] at hs
    exact absurd hs (by simp)
  | succ n ih =>
    intro st h0 hs
    by_cases hl : limit > 0 ∧ (st.totalSaved : Int) ≥ limit
    · rw [discLoopP_succ_limit cfg q limit pages n st hl] at hs
      simp at hs
    · cases hp : pages st.page with
      | notFound =>
        rw [discLoopP_succ_notFound cfg q limit pages n st hl hp] at hs ⊢
        exact ⟨hp, Or.inr ⟨rfl, rfl⟩⟩
      | exn =>
        rw [discLoopP_succ_exn cfg q limit pages n st hl hp] at hs
        simp at hs
      | httpErr =>
        rw [discLoopP_succ_httpErr cfg q limit pages n st hl hp] at hs ⊢
        have hih := ih (reqStep st) h0 hs
        refine ⟨hih.1, ?_⟩
        rcases hih.2 with h | h
        · exact Or.inl h
        · exact Or.inr h
      | pageOk recs wOk =>
        cases wOk with
        | false =>
          rw [discLoopP_succ_pageOk_false cfg q limit pages n st recs hl hp] at hs
          simp at hs
        | true =>
          rw [discLoopP_succ_pageOk_true cfg q limit pages n st recs hl hp] at hs ⊢
          have h0' : (pageStepW cfg q st recs).stopped = none := by
            rw [(pageStepW_fields cfg q st recs).2.2.2.2.2, h0]
          have hih := ih (pageStepW cfg q st recs) h0' hs
          refine ⟨hih.1, ?_⟩
          rcases hih.2 with h | h
          · exact Or.inl h
          · rcases h with ⟨hf, hpg⟩
            rw [hf, hpg, (pageStepW_fields cfg q st recs).2.2.2.2.1,
                (pageStepW_fields cfg q st recs).2.1]
            exact Or.inl (alookup_aset_same _ _ _)

/-- The query used by the C7 scenario. -/
def qC7 : Str := "q".data

/-- First upstream URL of the C7 scenario. -/
def uC7a : Str := "http://a.com/login".data

/-- Second upstream URL of the C7 scenario, on a later page. -/
def uC7b : Str := "http://b.com/login".data

/-- An unchanging upstream with one matching URL on each of pages 0 and 1. -/
def pagesC7 : Nat → PageResp := fun n =>
  if n = 0 then .pageOk [.urlRec uC7a] true
  else if n = 1 then .pageOk [.urlRec uC7b] true
  else .notFound

/-- C7 counterexample: with `record_limit = 1` the first run saves one URL
from page 0 and persists offset 1; the second run over the unchanged
upstream resumes at page 1 and appends one more line — not zero.  The
signature set never sees the page-1 URL, so it cannot suppress anything. -/
theorem claim_C7_counterexample :
    (run_discovery defaultCfg qC7 1 pagesC7 5 [] []).map DiscRun.corpus = .ok [uC7a] ∧
    (run_discovery defaultCfg qC7 1 pagesC7 5 [] []).map DiscRun.progressFile =
      .ok [(qC7, 1)] ∧
    (run_discovery defaultCfg qC7 1 pagesC7 5 [uC7a] [(qC7, 1)]).map DiscRun.corpus =
      .ok [uC7a, uC7b] := by
  refine ⟨by decide, by decide, by decide⟩

/-- C7 (amended): when the first run terminated because the index was
exhausted (404), a second run with the same query and unchanged upstream
appends zero new lines to the corpus — it resumes at the page that
returned 404 and stops immediately.  (When the first run stopped at its
record limit instead, the second run continues pagination and may append
new lines, as the counterexample shows.) -/
theorem claim_C7_amended (cfg : DiscConfig) (q : Str) (limit : Int)
    (pages : Nat → PageResp) (fuel1 fuel2 : Nat) (corpus0 : List Str)
    (prog0 : List (Str × Nat)) (st1 st2 : DiscRun)
    (h1 : run_discovery cfg q limit pages fuel1 corpus0 prog0 = .ok st1)
    (hstop : st1.stopped = some .exhausted)
    (h2 : run_discovery cfg q limit pages fuel2 st1.corpus st1.progressFile = .ok st2) :
    st2.corpus = st1.corpus := by
  unfold run_discovery at h1
  cases hre1 : rebuildSeen corpus0 with
  | error e => rw [hre1] at h1; simp [Except.map] at h1
  | ok seen1 =>
    rw [hre1] at h1
    simp only [Except.map] at h1
    injection h1 with h1
    have hnf := discLoopP_exhausted cfg q limit pages fuel1
      { corpus := corpus0, seen := seen1, progressMem := prog0, progressFile := prog0,
        page := (alookup prog0 q).getD 0, totalSaved := 0,
        requested := [], processedPages := [], progressWrites := [], stopped := none }
      rfl (by rw [h1]; exact hstop)
    rw [h1] at hnf
    have hpage2 : (alookup st1.progressFile q).getD 0 = st1.page := by
      rcases hnf.2 with h | h
      · rw [h]; rfl
      · rw [h.1]; exact h.2.symm
    unfold run_discovery at h2
    cases hre2 : rebuildSeen st1.corpus with
    | error e => rw [hre2] at h2; simp [Except.map] at h2
    | ok seen2 =>
      rw [hre2] at h2
      simp only [Except.map] at h2
      injection h2 with h2
      subst h2
      cases fuel2 with
      | zero => rw [discLoopP_zero]
      | succ n =>
        by_cases hl : limit > 0 ∧
            (({ corpus := st1.corpus, seen := seen2, progressMem := st1.progressFile,
                progressFile := st1.progressFile, page := (alookup st1.progressFile q).getD 0,
                totalSaved := 0, requested := [], processedPages := [],
                progressWrites := [], stopped := none } : DiscRun).totalSaved : Int) ≥ limit
        · rw [discLoopP_succ_limit cfg q limit pages n _ hl]
        · rw [discLoopP_succ_notFound cfg q limit pages n _ hl (by rw [hpage2]; exact hnf.1)]
          rfl

/-- An exhausted upstream for the C7 witness. -/
def pagesNFC7 : Nat → PageResp := fun _ => .notFound

/-- The final state of both C7 witness runs. -/
def st7ex : DiscRun := ⟨[], [], [], [], 0, 0, [0], [], [], some .exhausted⟩

/-- Witness for C7 (amended): a run that ends on 404 followed by a rerun
over the unchanged upstream leaves the corpus unchanged. -/
theorem claim_C7_witness :
    run_discovery defaultCfg qC7 0 pagesNFC7 2 [] [] = .ok st7ex ∧
    st7ex.stopped = some .exhausted ∧
    run_discovery defaultCfg qC7 0 pagesNFC7 3 st7ex.corpus st7ex.progressFile =
      .ok st7ex ∧
    st7ex.corpus = st7ex.corpus := by
  refine ⟨by decide, by decide, by decide, ?_⟩
  exact claim_C7_amended defaultCfg qC7 0 pagesNFC7 2 3 [] [] st7ex st7ex
    (by decide) (by decide) (by decide)

/-! ### Collector lemmas, claims C1 and C5 -/

theorem portalStep_fields (fails : WTarget → Str → Bool) (st : CState) (res url : Str) :
    (portalStep fails st res url).processed = st.processed ∧
    (portalStep fails st res url).subsNew = st.subsNew ∧
    (portalStep fails st res url).seenSubs = st.seenSubs := by
  unfold portalStep
  by_cases h1 : res = PORTAL
  · rw [if_pos h1]
    by_cases h2 : fails .wgold url = true
    · rw [if_pos h2]; exact ⟨rfl, rfl, rfl⟩
    · rw [if_neg h2]; exact ⟨rfl, rfl, rfl⟩
  · rw [if_neg h1]; exact ⟨rfl, rfl, rfl⟩

theorem collectCore_processed (fails : WTarget → Str → Bool) (st : CState)
    (item : Str × Except Unit (Str × Bool)) :
    (collectCore fails st item).processed = st.processed := by
  unfold collectCore
  rcases item with ⟨url, r⟩
  rcases r with e | ⟨res, live⟩
  · rfl
  · cases live
    · rfl
    · simp only []
      by_cases h1 : fails .wlog (res ++ " | ".data ++ url) = true
      · rw [if_pos h1]
      · rw [if_neg h1]
        split
        · rfl
        · rename_i p hup
          by_cases h2 : p.netloc ∈ st.seenSubs
          · rw [if_pos h2]
            exact (portalStep_fields fails _ res url).1
          · rw [if_neg h2]
            by_cases h3 : fails .wsubs p.netloc = true
            · rw [if_pos h3]
            · rw [if_neg h3]
              exact (portalStep_fields fails _ res url).1

theorem collectCore_subs (fails : WTarget → Str → Bool) (st : CState)
    (item : Str × Except Unit (Str × Bool))
    (hnd : st.subsNew.Nodup) (hss : ∀ d ∈ st.subsNew, d ∈ st.seenSubs) :
    (collectCore fails st item).subsNew.Nodup ∧
    (∀ d ∈ (collectCore fails st item).subsNew, d ∈ (collectCore fails st item).seenSubs) := by
  unfold collectCore
  rcases item with ⟨url, r⟩
  rcases r with e | ⟨res, live⟩
  · exact ⟨hnd, hss⟩
  · cases live
    · exact ⟨hnd, hss⟩
    · simp only []
      by_cases h1 : fails .wlog (res ++ " | ".data ++ url) = true
      · rw [if_pos h1]; exact ⟨hnd, hss⟩
      · rw [if_neg h1]
        split
        · exact ⟨hnd, hss⟩
        · rename_i p hup
          by_cases h2 : p.netloc ∈ st.seenSubs
          · rw [if_pos h2]
            have hf := portalStep_fields fails
              { st with logNew := st.logNew ++ [res ++ " | ".data ++ url] } res url
            rw [hf.2.1, hf.2.2]
            exact ⟨hnd, hss⟩
          · rw [if_neg h2]
            by_cases h3 : fails .wsubs p.netloc = true
            · rw [if_pos h3]; exact ⟨hnd, hss⟩
            · rw [if_neg h3]
              have hf := portalStep_fields fails
                { st with
                    logNew := st.logNew ++ [res ++ " | ".data ++ url]
                    subsNew := st.subsNew ++ [p.netloc]
                    seenSubs := p.netloc :: st.seenSubs } res url
              rw [hf.2.1, hf.2.2]
              constructor
              · rw [List.nodup_append]
                refine ⟨hnd, List.nodup_singleton _, ?_⟩
                intro x hx hx'
                rw [List.mem_singleton] at hx'
                subst hx'
                exact h2 (hss _ hx)
              · intro d hd
                rw [List.mem_append, List.mem_singleton] at hd
                rcases hd with hd | hd
                · exact List.mem_cons_of_mem _ (hss d hd)
                · subst hd; exact List.mem_cons_self _ _

theorem collectStep_processed (fails : WTarget → Str → Bool) (st : CState)
    (item : Str × Except Unit (Str × Bool)) :
    (collectStep fails st item).processed = st.processed + 1 := by
  show (collectCore fails st item).processed + 1 = st.processed + 1
  rw [collectCore_processed]

theorem collectStep_subs (fails : WTarget → Str → Bool) (st : CState)
    (item : Str × Except Unit (Str × Bool))
    (hnd : st.subsNew.Nodup) (hss : ∀ d ∈ st.subsNew, d ∈ st.seenSubs) :
    (collectStep fails st item).subsNew.Nodup ∧
    (∀ d ∈ (collectStep fails st item).subsNew, d ∈ (collectStep fails st item).seenSubs) :=
  collectCore_subs fails st item hnd hss

theorem foldl_collectStep_processed (fails : WTarget → Str → Bool) :
    ∀ (results : List (Str × Except Unit (Str × Bool))) (st : CState),
      (results.foldl (collectStep fails) st).processed = st.processed + results.length := by
  intro results
  induction results with
  | nil => intro st; simp
  | cons item t ih =>
    intro st
    simp only [List.foldl_cons, List.length_cons]
    rw [ih, collectStep_processed]
    omega

theorem foldl_collectStep_subs (fails : WTarget → Str → Bool) :
    ∀ (results : List (Str × Except Unit (Str × Bool))) (st : CState),
      st.subsNew.Nodup → (∀ d ∈ st.subsNew, d ∈ st.seenSubs) →
      (results.foldl (collectStep fails) st).subsNew.Nodup ∧
      (∀ d ∈ (results.foldl (collectStep fails) st).subsNew,
        d ∈ (results.foldl (collectStep fails) st).seenSubs) := by
  intro results
  induction results with
  | nil => intro st h1 h2; exact ⟨h1, h2⟩
  | cons item t ih =>
    intro st h1 h2
    simp only [List.foldl_cons]
    have hs := collectStep_subs fails st item h1 h2
    exact ih (collectStep fails st item) hs.1 hs.2

/-- Constant-live probe oracle for the C5 scenario. -/
def probeLiveC5 : Str → Except Unit (Str × Bool) := fun _ => .ok (LIVE, true)

/-- No write ever fails in the C5 scenario. -/
def noFailC5 : WTarget → Str → Bool := fun _ _ => false

/-- First corpus URL of the C5 scenario. -/
def uC5a : Str := "http://a.com/login".data

/-- Second corpus URL (same host), discovered between the two runs. -/
def uC5b : Str := "http://a.com/admin".data

/-- C5 counterexample: `seen_subs` is re-created per run (line 177), so a
host that is live in two successive validation runs (through two different
URLs) is appended to the active-host file twice — the file then holds two
lines for one distinct host, refuting the claim for sequences of runs. -/
theorem claim_C5_counterexample :
    run_validation noiseWords probeLiveC5 noFailC5
      { corpus := [uC5a], history := [], gold := [], subs := [] } =
      { corpus := [uC5a], history := ["LIVE | http://a.com/login".data],
        gold := [], subs := ["a.com".data] } ∧
    (run_validation noiseWords probeLiveC5 noFailC5
      { corpus := [uC5a, uC5b], history := ["LIVE | http://a.com/login".data],
        gold := [], subs := ["a.com".data] }).subs.count ("a.com".data) = 2 := by
  refine ⟨by decide, by decide⟩

/-- C5 (amended): within a single validation run the newly appended
active-host lines are pairwise distinct — a host is appended at most once
per run, the first time it is seen live in that run, guarded by the
per-run `seen_subs` set (this holds for every completion order and even
under write failures).  Across runs the set resets, so a host live in two
runs can appear once per run. -/
theorem claim_C5_amended (fails : WTarget → Str → Bool)
    (results : List (Str × Except Unit (Str × Bool))) :
    (results.foldl (collectStep fails) initC).subsNew.Nodup ∧
    (∀ d ∈ (results.foldl (collectStep fails) initC).subsNew,
      d ∈ (results.foldl (collectStep fails) initC).seenSubs) :=
  foldl_collectStep_subs fails results initC (List.nodup_nil)
    (by intro d hd; simp [initC] at hd)

/-- All-live probe for the C1 scenario. -/
def probeC1 : Str → Except Unit (Str × Bool) := fun _ => .ok (LIVE, true)

/-- In the C1 scenario exactly the log write for the first URL raises. -/
def failsC1 : WTarget → Str → Bool := fun t s =>
  t == WTarget.wlog && s == ("LIVE | http://a.com/login".data)

/-- First corpus URL of the C1 scenario. -/
def uC1a : Str := "http://a.com/login".data

/-- Second corpus URL of the C1 scenario. -/
def uC1b : Str := "http://b.com/admin".data

/-- C1 counterexample: the classification-log write for the first URL
raises, yet the run returns normally and still processes the second URL —
the broad `except Exception` at line 194 swallows write errors, so a
failing output-stream write does not propagate and does not abort the
validation run (the affected line is silently lost). -/
theorem claim_C1_counterexample :
    run_validationE true noiseWords probeC1 failsC1
      { corpus := [uC1a, uC1b], history := [], gold := [], subs := [] } =
      .ok { corpus := [uC1a, uC1b], history := ["LIVE | http://b.com/admin".data],
            gold := [], subs := ["b.com".data] } := by decide

/-- C1 (amended): a single URL's probe failure never aborts a validation
run, and neither does a failing write to an output stream inside the
per-result handler — every submitted result is still consumed (the
progress bar reaches the full count); a progress-file write failure in
discovery ends that loop early without raising, so `run_discovery` returns
normally whenever the corpus rebuild succeeded; only a failure to open the
output files propagates (modelled by `run_validationE` on `openOk`). -/
theorem claim_C1_amended (fails : WTarget → Str → Bool)
    (results : List (Str × Except Unit (Str × Bool))) (openOk : Bool)
    (noise : List Str) (probe : Str → Except Unit (Str × Bool)) (files : VFiles)
    (cfg : DiscConfig) (q : Str) (limit : Int) (pages : Nat → PageResp) (fuel : Nat)
    (corpus0 : List Str) (prog0 : List (Str × Nat))
    (hreb : (rebuildSeen corpus0).isOk = true) :
    (results.foldl (collectStep fails) initC).processed = results.length ∧
    (openOk = true → run_validationE openOk noise probe fails files =
      .ok (run_validation noise probe fails files)) ∧
    (run_discovery cfg q limit pages fuel corpus0 prog0).isOk = true := by
  refine ⟨?_, ?_, ?_⟩
  · rw [foldl_collectStep_processed]
    simp [initC]
  · intro h
    simp [run_validationE, h]
  · unfold run_discovery
    cases hre : rebuildSeen corpus0 with
    | error e => rw [hre] at hreb; simp [Except.isOk, Except.toBool] at hreb
    | ok seen => simp [hre, Except.map, Except.isOk, Except.toBool]

/-- Witness for C1 (amended): one probe exception with every write failing
is still fully processed, and a discovery run over an exhausted index
returns normally. -/
theorem claim_C1_witness :
    (rebuildSeen ([] : List Str)).isOk = true ∧
    ([(uC1a, (Except.error () : Except Unit (Str × Bool)))].foldl
        (collectStep (fun _ _ => true)) initC).processed = 1 ∧
    (run_discovery defaultCfg ("q".data) 0 (fun _ => PageResp.notFound) 1 [] []).isOk
      = true := by
  have h := claim_C1_amended (fun _ _ => true) [(uC1a, .error ())] true noiseWords
    probeC1 { corpus := [], history := [], gold := [], subs := [] }
    defaultCfg ("q".data) 0 (fun _ => PageResp.notFound) 1 [] [] (by decide)
  exact ⟨by decide, h.1, h.2.2⟩

/-! ### List lemmas for the URL-signature claim (C4) -/

theorem takeWhile_append_all {p : Char → Bool} :
    ∀ (l1 l2 : Str), (∀ c ∈ l1, p c = true) →
      (l1 ++ l2).takeWhile p = l1 ++ l2.takeWhile p := by
  intro l1
  induction l1 with
  | nil => intro l2 _; simp
  | cons c t ih =>
    intro l2 h
    have hc := h c (by simp)
    simp only [List.cons_append, List.takeWhile_cons, hc, if_true]
    rw [ih l2 (fun x hx => h x (by simp [hx]))]

theorem dropWhile_append_all {p : Char → Bool} :
    ∀ (l1 l2 : Str), (∀ c ∈ l1, p c = true) →
      (l1 ++ l2).dropWhile p = l2.dropWhile p := by
  intro l1
  induction l1 with
  | nil => intro l2 _; simp
  | cons c t ih =>
    intro l2 h
    have hc := h c (by simp)
    simp only [List.cons_append, List.dropWhile_cons, hc, if_true]
    exact ih l2 (fun x hx => h x (by simp [hx]))

theorem takeWhile_append_stop {p : Char → Bool} :
    ∀ (l1 l2 : Str) (c : Char), c ∈ l1 → p c = false →
      (l1 ++ l2).takeWhile p = l1.takeWhile p := by
  intro l1
  induction l1 with
  | nil => intro l2 c hc _; simp at hc
  | cons a t ih =>
    intro l2 c hc hpc
    by_cases hpa : p a = true
    · simp only [List.cons_append, List.takeWhile_cons, hpa, if_true]
      rcases List.mem_cons.mp hc with rfl | hct
      · rw [hpa] at hpc; cases hpc
      · rw [ih l2 c hct hpc]
    · rw [Bool.not_eq_true] at hpa
      simp only [List.cons_append, List.takeWhile_cons, hpa]
      simp

theorem dropWhile_append_stop {p : Char → Bool} :
    ∀ (l1 l2 : Str) (c : Char), c ∈ l1 → p c = false →
      (l1 ++ l2).dropWhile p = l1.dropWhile p ++ l2 := by
  intro l1
  induction l1 with
  | nil => intro l2 c hc _; simp at hc
  | cons a t ih =>
    intro l2 c hc hpc
    by_cases hpa : p a = true
    · simp only [List.cons_append, List.dropWhile_cons, hpa, if_true]
      rcases List.mem_cons.mp hc with rfl | hct
      · rw [hpa] at hpc; cases hpc
      · rw [ih l2 c hct hpc]
    · rw [Bool.not_eq_true] at hpa
      simp only [List.cons_append, List.dropWhile_cons, hpa]
      simp

theorem takeWhile_all_of_not_mem {p : Char → Bool} {l : Str} 
    (h : ∀ c ∈ l, p c = true) : l.takeWhile p = l := by
  induction l with
  | nil => rfl
  | cons a t ih =>
    simp only [List.takeWhile_cons, h a (by simp), if_true]
    rw [ih (fun x hx => h x (by simp [hx]))]

theorem takeWhile_length_lt {p : Char → Bool} :
    ∀ (l : Str) (c : Char), c ∈ l → p c = false → (l.takeWhile p).length < l.length := by
  intro l
  induction l with
  | nil => intro c hc _; simp at hc
  | cons a t ih =>
    intro c hc hpc
    by_cases hpa : p a = true
    · simp only [List.takeWhile_cons, hpa, if_true, List.length_cons]
      rcases List.mem_cons.mp hc with rfl | hct
      · rw [hpa] at hpc; cases hpc
      · have := ih c hct hpc
        omega
    · rw [Bool.not_eq_true] at hpa
      simp [List.takeWhile_cons, hpa]

theorem splitFirst_not_mem {c : Char} {l : Str} (h : c ∉ l) :
    splitFirst c l = (l, []) := by
  unfold splitFirst
  have hall : ∀ x ∈ l, (x != c) = true := by
    intro x hx
    cases hxc : x == c
    · simp [bne, hxc]
    · exact absurd (by rw [eq_of_beq hxc] at hx; exact hx) h
  rw [takeWhile_all_of_not_mem hall]
  have hdw : l.dropWhile (fun x => x != c) = [] := by
    induction l with
    | nil => rfl
    | cons a t ih =>
      simp only [List.dropWhile_cons, hall a (by simp), if_true]
      exact ih (fun hx => h (by simp [hx])) (fun x hx => hall x (by simp [hx]))
  rw [hdw]
  rfl

theorem splitFirst_append_hit {c : Char} {l1 l2 : Str} (h : c ∉ l1) :
    splitFirst c (l1 ++ c :: l2) = (l1, l2) := by
  unfold splitFirst
  have hall : ∀ x ∈ l1, (x != c) = true := by
    intro x hx
    cases hxc : x == c
    · simp [bne, hxc]
    · exact absurd (by rw [eq_of_beq hxc] at hx; exact hx) h
  rw [takeWhile_append_all l1 (c :: l2) hall, dropWhile_append_all l1 (c :: l2) hall]
  simp [List.takeWhile_cons, List.dropWhile_cons]

theorem splitFirst_append_fst {c : Char} {l1 l2 : Str} (h : c ∉ l1) :
    (splitFirst c (l1 ++ l2)).1 = l1 ++ (splitFirst c l2).1 := by
  unfold splitFirst
  have hall : ∀ x ∈ l1, (x != c) = true := by
    intro x hx
    cases hxc : x == c
    · simp [bne, hxc]
    · exact absurd (by rw [eq_of_beq hxc] at hx; exact hx) h
  simp only
  rw [takeWhile_append_all l1 l2 hall]

theorem schemeSplit_snd_sublist (u : Str) : (schemeSplit u).2.Sublist u := by
  unfold schemeSplit
  split
  · exact (List.drop_sublist _ _)
  · exact List.Sublist.refl u

theorem netlocSplit_snd_sublist {r nl r2 : Str} (h : netlocSplit r = .ok (nl, r2)) :
    r2.Sublist r := by
  unfold netlocSplit at h
  split at h
  · split at h
    · cases h
    · injection h with h
      rw [Prod.mk.injEq] at h
      rw [← h.2]
      exact ((List.dropWhile_sublist _).trans (List.drop_sublist _ _))
  · injection h with h
    rw [Prod.mk.injEq] at h
    rw [← h.2]

theorem all_bne_of_not_mem {c : Char} {l : Str} (h : c ∉ l) :
    ∀ x ∈ l, (x != c) = true := by
  intro x hx
  cases hxc : x == c
  · simp [bne, hxc]
  · exact absurd (by rw [eq_of_beq hxc] at hx; exact hx) h

theorem dropWhile_eq_nil_of_all {p : Char → Bool} :
    ∀ (l : Str), (∀ c ∈ l, p c = true) → l.dropWhile p = [] := by
  intro l
  induction l with
  | nil => intro _; rfl
  | cons a t ih =>
    intro h
    simp only [List.dropWhile_cons, h a (by simp), if_true]
    exact ih (fun x hx => h x (by simp [hx]))

theorem drop_append_of_le : ∀ (n : Nat) (s r : Str), n ≤ s.length →
    (s ++ r).drop n = s.drop n ++ r := by
  intro n
  induction n with
  | zero => intro s r _; simp
  | succ m ih =>
    intro s r h
    cases s with
    | nil => simp at h
    | cons a t =>
      simp only [List.cons_append, List.drop_succ_cons]
      exact ih t r (by simpa using h)

/-- A string that `urlsplit` detects as a scheme: nonempty, starts with an
ASCII letter, all scheme characters. -/
def validScheme (s : Str) : Prop :=
  s ≠ [] ∧ headAlpha s = true ∧ s.all isSchemeChar = true

theorem isSchemeChar_bne_colon {c : Char} (h : isSchemeChar c = true) :
    (c != ':') = true := by
  cases hc : c == ':'
  · simp [bne, hc]
  · rw [eq_of_beq hc] at h
    exact absurd h (by decide)

theorem schemePre_of_valid {s : Str} (r : Str) (hv : validScheme s) :
    schemePre (s ++ ':' :: r) = s := by
  unfold schemePre
  have hall : ∀ c ∈ s, ((c != ':') = true) := fun c hc =>
    isSchemeChar_bne_colon (List.all_eq_true.mp hv.2.2 c hc)
  rw [takeWhile_append_all s (':' :: r) hall]
  simp [List.takeWhile_cons]

theorem drop_len_succ_append (s : Str) (c : Char) (r : Str) :
    (s ++ c :: r).drop (s.length + 1) = r := by
  induction s with
  | nil => simp
  | cons a t ih =>
    simp only [List.cons_append, List.length_cons, List.drop_succ_cons]
    exact ih

theorem schemeSplit_valid {s : Str} (r : Str) (hv : validScheme s) :
    schemeSplit (s ++ ':' :: r) = (lower s, r) := by
  unfold schemeSplit
  rw [schemePre_of_valid r hv]
  rw [if_pos ⟨by simp, hv.1, hv.2.1, hv.2.2⟩]
  rw [drop_len_succ_append]

theorem schemeSplit_append_blocker {u t : Str} {b : Char}
    (hb1 : isSchemeChar b = false) (hb2 : (b != ':') = true) :
    schemeSplit (u ++ b :: t) = ((schemeSplit u).1, (schemeSplit u).2 ++ b :: t) := by
  by_cases hmem : ':' ∈ u
  · have hpre : schemePre (u ++ b :: t) = schemePre u :=
      takeWhile_append_stop u (b :: t) ':' hmem (by simp [bne])
    have hlt : (schemePre u).length < u.length :=
      takeWhile_length_lt u ':' hmem (by simp [bne])
    unfold schemeSplit
    rw [hpre]
    by_cases hcond : schemePre u ≠ [] ∧
        headAlpha (schemePre u) = true ∧ (schemePre u).all isSchemeChar = true
    · rw [if_pos ⟨by simp; omega, hcond⟩, if_pos ⟨hlt, hcond⟩]
      rw [drop_append_of_le ((schemePre u).length + 1) u (b :: t) (by omega)]
    · rw [if_neg (fun hc => hcond ⟨hc.2.1, hc.2.2⟩),
          if_neg (fun hc => hcond ⟨hc.2.1, hc.2.2⟩)]
  · have hallne : ∀ c ∈ u, ((c != ':') = true) := all_bne_of_not_mem hmem
    have hpreu : schemePre u = u := takeWhile_all_of_not_mem hallne
    have hpreapp : schemePre (u ++ b :: t) = u ++ b :: (t.takeWhile (fun c => c != ':')) := by
      unfold schemePre
      rw [takeWhile_append_all u (b :: t) hallne]
      simp only [List.takeWhile_cons, hb2, if_true]
    unfold schemeSplit
    rw [hpreu, hpreapp]
    rw [if_neg (fun hc => by
      have := List.all_eq_true.mp hc.2.2.2 b (by simp)
      rw [hb1] at this
      cases this)]
    rw [if_neg (fun hc => by omega)]

theorem netlocSplit_append_blocker {r t : Str} {b : Char}
    (hb1 : stopChar b = true) (hb2 : b ≠ '/') :
    netlocSplit (r ++ b :: t) =
      (netlocSplit r).map (fun pr => (pr.1, pr.2 ++ b :: t)) := by
  rcases r with _ | ⟨c1, _ | ⟨c2, rr⟩⟩
  · unfold netlocSplit
    rw [if_neg (fun hh => by
      simp only [List.nil_append, List.take_succ_cons] at hh
      exact hb2 (List.cons.injEq .. |>.mp hh).1)]
    rw [if_neg (by simp)]
    rfl
  · unfold netlocSplit
    rw [if_neg (fun hh => by
      simp only [List.cons_append, List.nil_append, List.take_succ_cons,
        List.take_zero] at hh
      injection hh with h1 h2
      injection h2 with h2 h3
      exact hb2 h2)]
    rw [if_neg (by intro hh; simp at hh)]
    rfl
  · unfold netlocSplit
    simp only [List.cons_append, List.take_succ_cons, List.take_zero]
    by_cases hsl : c1 = '/' ∧ c2 = '/'
    · obtain ⟨rfl, rfl⟩ := hsl
      rw [if_pos rfl, if_pos rfl]
      simp only [List.drop_succ_cons, List.drop_zero]
      have hnb : (!stopChar b) = false := by rw [hb1]; rfl
      by_cases hstop : ∀ c ∈ rr, (!stopChar c) = true
      · have h1 : (rr ++ b :: t).takeWhile (fun c => !stopChar c) = rr := by
          rw [takeWhile_append_all rr (b :: t) hstop]
          simp [List.takeWhile_cons, hnb]
        have h2 : (rr ++ b :: t).dropWhile (fun c => !stopChar c) = b :: t := by
          rw [dropWhile_append_all rr (b :: t) hstop]
          simp [List.dropWhile_cons, hnb]
        have h3 : rr.takeWhile (fun c => !stopChar c) = rr :=
          takeWhile_all_of_not_mem hstop
        have h4 : rr.dropWhile (fun c => !stopChar c) = [] :=
          dropWhile_eq_nil_of_all rr hstop
        rw [h1, h2, h3, h4]
        by_cases hbr : rr.contains '[' != rr.contains ']'
        · rw [if_pos hbr, if_pos hbr]
          rfl
        · rw [if_neg hbr, if_neg hbr]
          rfl
      · push_neg at hstop
        obtain ⟨c, hc, hpc⟩ := hstop
        simp only [ne_eq, Bool.not_eq_true] at hpc
        have h1 : (rr ++ b :: t).takeWhile (fun c => !stopChar c) =
            rr.takeWhile (fun c => !stopChar c) :=
          takeWhile_append_stop rr (b :: t) c hc hpc
        have h2 : (rr ++ b :: t).dropWhile (fun c => !stopChar c) =
            rr.dropWhile (fun c => !stopChar c) ++ b :: t :=
          dropWhile_append_stop rr (b :: t) c hc hpc
        rw [h1, h2]
        by_cases hbr : (rr.takeWhile (fun c => !stopChar c)).contains '[' !=
            (rr.takeWhile (fun c => !stopChar c)).contains ']'
        · rw [if_pos hbr, if_pos hbr]
          rfl
        · rw [if_neg hbr, if_neg hbr]
          rfl
    · rw [if_neg (fun hh => hsl ⟨(List.cons.injEq .. |>.mp hh).1,
            (List.cons.injEq .. |>.mp (List.cons.injEq .. |>.mp hh).2).1⟩),
          if_neg (fun hh => hsl ⟨(List.cons.injEq .. |>.mp hh).1,
            (List.cons.injEq .. |>.mp (List.cons.injEq .. |>.mp hh).2).1⟩)]
      rfl

theorem urlsplitE_ok {u : Str} {nl r2 : Str}
    (h : netlocSplit (schemeSplit u).2 = .ok (nl, r2)) :
    urlsplitE u = .ok { scheme := (schemeSplit u).1, netloc := nl,
                        path := (splitFirst '?' (splitFirst '#' r2).1).1, params := [],
                        query := (splitFirst '?' (splitFirst '#' r2).1).2,
                        fragment := (splitFirst '#' r2).2 } := by
  unfold urlsplitE
  rw [h]

theorem urlsplitE_error {u : Str} {e : String}
    (h : netlocSplit (schemeSplit u).2 = .error e) : urlsplitE u = .error e := by
  unfold urlsplitE
  rw [h]

theorem urlparseE_eq (u : Str) (r : ParseResult) (h : urlsplitE u = .ok r) :
    urlparseE u = if r.scheme ∈ usesParams ∧ ';' ∈ r.path
      then .ok { r with path := (_splitparams r.path).1, params := (_splitparams r.path).2 }
      else .ok r := by
  unfold urlparseE
  rw [h]
  rfl

theorem csigE_congr {u v : Str} {r1 r2 : ParseResult}
    (hu : urlsplitE u = .ok r1) (hv : urlsplitE v = .ok r2)
    (hs : (r1.scheme ∈ usesParams) ↔ (r2.scheme ∈ usesParams))
    (hn : r1.netloc = r2.netloc) (hp : r1.path = r2.path) :
    csigE u = csigE v := by
  unfold csigE
  rw [urlparseE_eq u r1 hu, urlparseE_eq v r2 hv]
  by_cases hc : r1.scheme ∈ usesParams ∧ ';' ∈ r1.path
  · have hc2 : r2.scheme ∈ usesParams ∧ ';' ∈ r2.path := by
      refine ⟨hs.mp hc.1, ?_⟩
      rw [← hp]
      exact hc.2
    rw [if_pos hc, if_pos hc2]
    simp [Except.map, sigOf, hn, hp]
  · have hc2 : ¬(r2.scheme ∈ usesParams ∧ ';' ∈ r2.path) := by
      intro hcc
      exact hc ⟨hs.mpr hcc.1, by rw [hp]; exact hcc.2⟩
    rw [if_neg hc, if_neg hc2]
    simp [Except.map, sigOf, hn, hp]

theorem csigE_error_congr {u v : Str} {e : String}
    (hu : urlsplitE u = .error e) (hv : urlsplitE v = .error e) : csigE u = csigE v := by
  unfold csigE urlparseE
  rw [hu, hv]

/-- Appending a fragment (`#...`) to a URL with no `#` does not change its
signature. -/
theorem csigE_append_fragment (u f : Str) (h : '#' ∉ u) :
    csigE (u ++ '#' :: f) = csigE u := by
  have hsch := schemeSplit_append_blocker (u := u) (t := f) (b := '#')
    (by decide) (by decide)
  have hsch1 : (schemeSplit (u ++ '#' :: f)).1 = (schemeSplit u).1 := by rw [hsch]
  have hsch2 : (schemeSplit (u ++ '#' :: f)).2 = (schemeSplit u).2 ++ '#' :: f := by
    rw [hsch]
  have hnl := netlocSplit_append_blocker (r := (schemeSplit u).2) (t := f) (b := '#')
    (by decide) (by decide)
  cases hn : netlocSplit (schemeSplit u).2 with
  | error e =>
    refine csigE_error_congr (e := e) ?_ (urlsplitE_error hn)
    apply urlsplitE_error
    rw [hsch2, hnl, hn]
    rfl
  | ok nr =>
    obtain ⟨nl, r2⟩ := nr
    have h2 : '#' ∉ r2 := fun hx =>
      h (((netlocSplit_snd_sublist hn).trans (schemeSplit_snd_sublist u)).subset hx)
    have huApp := @urlsplitE_ok (u ++ '#' :: f) nl (r2 ++ '#' :: f)
      (by rw [hsch2, hnl, hn]; rfl)
    have huBase := @urlsplitE_ok u nl r2 hn
    refine csigE_congr huApp huBase ?_ rfl ?_
    · show ((schemeSplit (u ++ '#' :: f)).1 ∈ usesParams) ↔
        ((schemeSplit u).1 ∈ usesParams)
      rw [hsch1]
    · show (splitFirst '?' (splitFirst '#' (r2 ++ '#' :: f)).1).1 =
        (splitFirst '?' (splitFirst '#' r2).1).1
      rw [splitFirst_append_hit h2, splitFirst_not_mem h2]

/-- Appending a query (`?...`) to a URL with no `#` and no `?` does not
change its signature. -/
theorem csigE_append_query (u q : Str) (hh : '#' ∉ u) (hq : '?' ∉ u) :
    csigE (u ++ '?' :: q) = csigE u := by
  have hsch := schemeSplit_append_blocker (u := u) (t := q) (b := '?')
    (by decide) (by decide)
  have hsch1 : (schemeSplit (u ++ '?' :: q)).1 = (schemeSplit u).1 := by rw [hsch]
  have hsch2 : (schemeSplit (u ++ '?' :: q)).2 = (schemeSplit u).2 ++ '?' :: q := by
    rw [hsch]
  have hnl := netlocSplit_append_blocker (r := (schemeSplit u).2) (t := q) (b := '?')
    (by decide) (by decide)
  cases hn : netlocSplit (schemeSplit u).2 with
  | error e =>
    refine csigE_error_congr (e := e) ?_ (urlsplitE_error hn)
    apply urlsplitE_error
    rw [hsch2, hnl, hn]
    rfl
  | ok nr =>
    obtain ⟨nl, r2⟩ := nr
    have hsub : r2.Sublist u :=
      (netlocSplit_snd_sublist hn).trans (schemeSplit_snd_sublist u)
    have h2 : '#' ∉ r2 := fun hx => hh (hsub.subset hx)
    have h3 : '?' ∉ r2 := fun hx => hq (hsub.subset hx)
    have huApp := @urlsplitE_ok (u ++ '?' :: q) nl (r2 ++ '?' :: q)
      (by rw [hsch2, hnl, hn]; rfl)
    have huBase := @urlsplitE_ok u nl r2 hn
    refine csigE_congr huApp huBase ?_ rfl ?_
    · show ((schemeSplit (u ++ '?' :: q)).1 ∈ usesParams) ↔
        ((schemeSplit u).1 ∈ usesParams)
      rw [hsch1]
    · show (splitFirst '?' (splitFirst '#' (r2 ++ '?' :: q)).1).1 =
        (splitFirst '?' (splitFirst '#' r2).1).1
      rw [splitFirst_append_fst h2, splitFirst_not_mem h2]
      have hw : (splitFirst '#' ('?' :: q)).1 = '?' :: q.takeWhile (fun c => c != '#') := by
        unfold splitFirst
        simp [List.takeWhile_cons]
      rw [hw]
      show (splitFirst '?' (r2 ++ '?' :: q.takeWhile (fun c => c != '#'))).1 =
        (splitFirst '?' r2).1
      rw [splitFirst_append_hit h3, splitFirst_not_mem h3]

/-- Swapping the scheme of a URL for another valid scheme with the same
params-splitting status does not change its signature. -/
theorem csigE_scheme_swap (s1 s2 r : Str) (h1 : validScheme s1) (h2 : validScheme s2)
    (hp : (lower s1 ∈ usesParams) ↔ (lower s2 ∈ usesParams)) :
    csigE (s1 ++ ':' :: r) = csigE (s2 ++ ':' :: r) := by
  have e1 := schemeSplit_valid r h1
  have e2 := schemeSplit_valid r h2
  have e1a : (schemeSplit (s1 ++ ':' :: r)).1 = lower s1 := by rw [e1]
  have e1b : (schemeSplit (s1 ++ ':' :: r)).2 = r := by rw [e1]
  have e2a : (schemeSplit (s2 ++ ':' :: r)).1 = lower s2 := by rw [e2]
  have e2b : (schemeSplit (s2 ++ ':' :: r)).2 = r := by rw [e2]
  cases hn : netlocSplit r with
  | error e =>
    exact csigE_error_congr (urlsplitE_error (by rw [e1b]; exact hn))
      (urlsplitE_error (by rw [e2b]; exact hn))
  | ok nr =>
    obtain ⟨nl, r2⟩ := nr
    have hu1 := @urlsplitE_ok (s1 ++ ':' :: r) nl r2 (by rw [e1b]; exact hn)
    have hu2 := @urlsplitE_ok (s2 ++ ':' :: r) nl r2 (by rw [e2b]; exact hn)
    refine csigE_congr hu1 hu2 ?_ rfl rfl
    show ((schemeSplit (s1 ++ ':' :: r)).1 ∈ usesParams) ↔
      ((schemeSplit (s2 ++ ':' :: r)).1 ∈ usesParams)
    rw [e1a, e2a]
    exact hp

/-- A body record whose URL survives the strip/lower round trip — i.e. it
has no surrounding whitespace, so the signature computed when the line is
written equals the one recomputed from the corpus file on later runs. -/
def recFix : JsonRec → Prop
  | .malformed => True
  | .urlRec raw => lower (strip (lower raw)) = lower raw

/-- A healthy corpus line: re-reading it (strip, lower) reproduces it, and
it parses. -/
def GoodLine (l : Str) : Prop := lower (strip l) = l ∧ (csigE l).isOk = true

/-- The discovery invariant tying the corpus file to the signature set. -/
def CorpusOk (corpus seen : List Str) : Prop :=
  (∀ l ∈ corpus, GoodLine l) ∧
  corpus.Pairwise (fun a b => csigE a ≠ csigE b) ∧
  (∀ l ∈ corpus, ∀ s, csigE l = .ok s → s ∈ seen)

theorem processRec_corpusOk (cfg : DiscConfig) (st : DiscRun) (r : JsonRec)
    (hr : recFix r) (hc : CorpusOk st.corpus st.seen) :
    CorpusOk (processRec cfg st r).corpus (processRec cfg st r).seen := by
  cases r with
  | malformed => exact hc
  | urlRec raw =>
    simp only [processRec]
    by_cases hm : matchesFilter cfg (lower raw) = true
    · rw [if_pos hm]
      split
    
      · exact hc
      · rename_i sig hcs
        by_cases hs : sig ∈ st.seen
        · rw [if_pos hs]
          exact hc
        · rw [if_neg hs]
          refine ⟨?_, ?_, ?_⟩
          · intro l hl
            rw [List.mem_append] at hl
            rcases hl with hl | hl
            · exact hc.1 l hl
            · rw [List.mem_singleton] at hl
              subst hl
              exact ⟨hr, by rw [hcs]; rfl⟩
          · rw [List.pairwise_append]
            refine ⟨hc.2.1, List.pairwise_singleton _ _, ?_⟩
            intro a ha b hb
            rw [List.mem_singleton] at hb
            subst hb
            obtain ⟨sa, hsa⟩ : ∃ sa, csigE a = .ok sa := by
              have := (hc.1 a ha).2
              cases hca : csigE a
              · rw [hca] at this; cases this
              · exact ⟨_, rfl⟩
            intro heq
            rw [hsa, hcs] at heq
            injection heq with heq
            exact hs (heq ▸ hc.2.2 a ha sa hsa)
          · intro l hl s hsl
            rw [List.mem_append] at hl
            rcases hl with hl | hl
            · exact List.mem_cons_of_mem _ (hc.2.2 l hl s hsl)
            · rw [List.mem_singleton] at hl
              subst hl
              rw [hcs] at hsl
              injection hsl with hsl
              rw [← hsl]
              exact List.mem_cons_self _ _
    · rw [if_neg hm]
      exact hc

theorem foldl_processRec_corpusOk (cfg : DiscConfig) :
    ∀ (recs : List JsonRec) (st : DiscRun), (∀ r ∈ recs, recFix r) →
      CorpusOk st.corpus st.seen →
      CorpusOk (recs.foldl (processRec cfg) st).corpus
        (recs.foldl (processRec cfg) st).seen := by
  intro recs
  induction recs with
  | nil => intro st _ hc; exact hc
  | cons r t ih =>
    intro st hr hc
    simp only [List.foldl_cons]
    exact ih (processRec cfg st r) (fun x hx => hr x (by simp [hx]))
      (processRec_corpusOk cfg st r (hr r (by simp)) hc)

theorem discLoopP_corpusOk (cfg : DiscConfig) (q : Str) (limit : Int)
    (pages : Nat → PageResp)
    (hrecs : ∀ p recs w, pages p = .pageOk recs w → ∀ r ∈ recs, recFix r) :
    ∀ (fuel : Nat) (st : DiscRun), CorpusOk st.corpus st.seen →
      CorpusOk (discLoopP cfg q limit pages fuel st).corpus
        (discLoopP cfg q limit pages fuel st).seen := by
  intro fuel
  induction fuel with
  | zero => intro st hc; simpa [discLoopP_zero] using hc
  | succ n ih =>
    intro st hc
    by_cases hl : limit > 0 ∧ (st.totalSaved : Int) ≥ limit
    · rw [discLoopP_succ_limit cfg q limit pages n st hl]
      exact hc
    · cases hp : pages st.page with
      | notFound =>
        rw [discLoopP_succ_notFound cfg q limit pages n st hl hp]
        exact hc
      | exn =>
        rw [discLoopP_succ_exn cfg q limit pages n st hl hp]
        exact hc
      | httpErr =>
        rw [discLoopP_succ_httpErr cfg q limit pages n st hl hp]
        exact ih (reqStep st) hc
      | pageOk recs wOk =>
        have hstep : CorpusOk (pageStep cfg q st recs).corpus (pageStep cfg q st recs).seen := by
          show CorpusOk (recs.foldl (processRec cfg) (reqStep st)).corpus
            (recs.foldl (processRec cfg) (reqStep st)).seen
          exact foldl_processRec_corpusOk cfg recs (reqStep st)
            (hrecs st.page recs wOk hp) hc
        cases wOk with
        | true =>
          rw [discLoopP_succ_pageOk_true cfg q limit pages n st recs hl hp]
          exact ih (pageStepW cfg q st recs) hstep
        | false =>
          rw [discLoopP_succ_pageOk_false cfg q limit pages n st recs hl hp]
          exact hstep

theorem rebuildSeen_of_good :
    ∀ (corpus : List Str), (∀ l ∈ corpus, GoodLine l) →
      ∃ seen, rebuildSeen corpus = .ok seen ∧
        (∀ l ∈ corpus, ∀ s, csigE l = .ok s → s ∈ seen) := by
  intro corpus
  induction corpus with
  | nil => exact fun _ => ⟨[], rfl, by simp⟩
  | cons l t ih =>
    intro hg
    obtain ⟨seen, hseen, hmem⟩ := ih (fun x hx => hg x (by simp [hx]))
    have hgl := hg l (by simp)
    obtain ⟨s, hs⟩ : ∃ s, csigE l = .ok s := by
      have h2 := hgl.2
      cases hcs : csigE l
      · rw [hcs] at h2; cases h2
      · exact ⟨_, rfl⟩
    refine ⟨s :: seen, ?_, ?_⟩
    · unfold rebuildSeen at hseen ⊢
      rw [List.mapM_cons, hgl.1, hs, hseen]
      rfl
    · intro x hx sx hsx
      rw [List.mem_cons] at hx
      rcases hx with rfl | hx
      · rw [hs] at hsx
        injection hsx with hsx
        rw [← hsx]
        exact List.mem_cons_self _ _
      · exact List.mem_cons_of_mem _ (hmem x hx sx hsx)

theorem run_discovery_corpusOk (cfg : DiscConfig) (q : Str) (limit : Int)
    (pages : Nat → PageResp) (fuel : Nat) (corpus0 : List Str)
    (prog0 : List (Str × Nat)) (st : DiscRun)
    (hrecs : ∀ p recs w, pages p = .pageOk recs w → ∀ r ∈ recs, recFix r)
    (hg : ∀ l ∈ corpus0, GoodLine l)
    (hpw : corpus0.Pairwise (fun a b => csigE a ≠ csigE b))
    (hrun : run_discovery cfg q limit pages fuel corpus0 prog0 = .ok st) :
    (∀ l ∈ st.corpus, GoodLine l) ∧
    st.corpus.Pairwise (fun a b => csigE a ≠ csigE b) := by
  obtain ⟨seen, hseen, hmem⟩ := rebuildSeen_of_good corpus0 hg
  unfold run_discovery at hrun
  rw [hseen] at hrun
  simp only [Except.map] at hrun
  injection hrun with hrun
  subst hrun
  have hres := discLoopP_corpusOk cfg q limit pages hrecs fuel
    { corpus := corpus0, seen := seen, progressMem := prog0, progressFile := prog0,
      page := (alookup prog0 q).getD 0, totalSaved := 0,
      requested := [], processedPages := [], progressWrites := [], stopped := none }
    ⟨hg, hpw, hmem⟩
  exact ⟨hres.1, hres.2.1⟩

theorem discChain_pairwise (cfg : DiscConfig) (q : Str) :
    ∀ (specs : List RunSpec) (corpus0 : List Str) (prog0 : List (Str × Nat)),
      (∀ sp ∈ specs, ∀ p recs w, sp.pages p = .pageOk recs w → ∀ r ∈ recs, recFix r) →
      (∀ l ∈ corpus0, GoodLine l) →
      corpus0.Pairwise (fun a b => csigE a ≠ csigE b) →
      ∀ corpusN progN, discChain cfg q specs (corpus0, prog0) = .ok (corpusN, progN) →
      corpusN.Pairwise (fun a b => csigE a ≠ csigE b) ∧ (∀ l ∈ corpusN, GoodLine l) := by
  intro specs
  induction specs with
  | nil =>
    intro corpus0 prog0 _ hg hpw corpusN progN hch
    unfold discChain at hch
    injection hch with hch
    rw [Prod.mk.injEq] at hch
    rw [← hch.1]
    exact ⟨hpw, hg⟩
  | cons sp t ih =>
    intro corpus0 prog0 hspecs hg hpw corpusN progN hch
    unfold discChain at hch
    simp only [bind, Except.bind] at hch
    cases hrun : run_discovery cfg q sp.limit sp.pages sp.fuel corpus0 prog0 with
    | error e => rw [hrun] at hch; cases hch
    | ok st =>
      rw [hrun] at hch
      have hok := run_discovery_corpusOk cfg q sp.limit sp.pages sp.fuel corpus0 prog0 st
        (hspecs sp (by simp)) hg hpw hrun
      have := ih st.corpus st.progressFile
        (fun x hx => hspecs x (by simp [hx])) hok.1 hok.2 corpusN progN hch
      exact this

/-- Query name for the C4 scenario. -/
def qC4 : Str := "q".data

/-- A candidate URL with a trailing space. -/
def uC4w1 : Str := "http://a.com/login ".data

/-- The same URL with scheme https, also with the trailing space. -/
def uC4w2 : Str := "https://a.com/login ".data

/-- Upstream for the C4 whitespace scenario: the two URLs on pages 0, 1. -/
def pagesC4 : Nat → PageResp := fun n =>
  if n = 0 then .pageOk [.urlRec uC4w1] true
  else if n = 1 then .pageOk [.urlRec uC4w2] true
  else .notFound

/-- C4 counterexample, two independent violations.  (i) `urlparse` strips
`;params` from the path only for schemes in `uses_params`, so
`http://a.com/login;x` and `gopher://a.com/login;x` — candidate URLs that
differ only in scheme and pass the keyword/extension filter — get
different signatures.  (ii) The corpus rebuild (line 75) strips each line
while the write path (line 98) does not strip, so with a trailing space
the signatures disagree across runs: `http://a.com/login ` and
`https://a.com/login ` differ only in scheme and have equal candidate
signatures, yet after two discovery runs both appear in the corpus. -/
theorem claim_C4_counterexample :
    csigE ("http://a.com/login;x".data) ≠ csigE ("gopher://a.com/login;x".data) ∧
    matchesFilter defaultCfg ("http://a.com/login;x".data) = true ∧
    matchesFilter defaultCfg ("gopher://a.com/login;x".data) = true ∧
    csigE (lower uC4w1) = csigE (lower uC4w2) ∧
    (run_discovery defaultCfg qC4 1 pagesC4 5 [] []).map DiscRun.corpus = .ok [uC4w1] ∧
    (run_discovery defaultCfg qC4 1 pagesC4 5 [uC4w1] [(qC4, 1)]).map DiscRun.corpus =
      .ok [uC4w1, uC4w2] := by
  refine ⟨by decide, by decide, by decide, by decide, by decide, by decide⟩

/-- C4 (amended): candidate signatures are insensitive to letter case (the
pipeline lowercases before parsing), to a fragment appended to a
fragment-free URL, to a query string appended to a fragment- and
query-free URL, and to swapping one valid scheme for another provided the
two schemes are treated alike by parameter splitting (e.g. both http and
https); and across any whole sequence of discovery runs from an empty
corpus whose upstream URLs carry no surrounding whitespace, the corpus
never holds two lines with the same signature — so at most one of any two
same-signature candidates ever appears. -/
theorem claim_C4_signature_dedup :
    (∀ u1 u2 : Str, lower u1 = lower u2 → csigE (lower u1) = csigE (lower u2)) ∧
    (∀ u f : Str, '#' ∉ u → csigE (u ++ '#' :: f) = csigE u) ∧
    (∀ u q : Str, '#' ∉ u → '?' ∉ u → csigE (u ++ '?' :: q) = csigE u) ∧
    (∀ s1 s2 r : Str, validScheme s1 → validScheme s2 →
      ((lower s1 ∈ usesParams) ↔ (lower s2 ∈ usesParams)) →
      csigE (s1 ++ ':' :: r) = csigE (s2 ++ ':' :: r)) ∧
    (∀ (q : Str) (cfg : DiscConfig) (specs : List RunSpec)
       (corpusN : List Str) (progN : List (Str × Nat)),
      (∀ sp ∈ specs, ∀ p recs w, sp.pages p = .pageOk recs w → ∀ r ∈ recs, recFix r) →
      discChain cfg q specs ([], []) = .ok (corpusN, progN) →
      ∀ a b, List.Sublist [a, b] corpusN → csigE a ≠ csigE b) := by
  refine ⟨?_, csigE_append_fragment, csigE_append_query, csigE_scheme_swap, ?_⟩
  · intro u1 u2 h
    rw [h]
  · intro q cfg specs corpusN progN hspecs hch a b hsub
    have hpw := (discChain_pairwise cfg q specs [] [] hspecs (by simp)
      List.Pairwise.nil corpusN progN hch).1
    have hp2 := hpw.sublist hsub
    rw [List.pairwise_cons] at hp2
    exact hp2.1 b (by simp)

/-- Witness for C4 (amended) at concrete inputs: a fragment append and an
http/https scheme swap on a params-bearing path leave the signature
unchanged. -/
theorem claim_C4_witness :
    ('#' ∉ ("http://a.com/login".data)) ∧
    csigE ("http://a.com/login".data ++ '#' :: "frag".data) =
      csigE ("http://a.com/login".data) ∧
    validScheme ("http".data) ∧ validScheme ("https".data) ∧
    csigE ("http".data ++ ':' :: "//a.com/x;y".data) =
      csigE ("https".data ++ ':' :: "//a.com/x;y".data) := by
  have h := claim_C4_signature_dedup
  exact ⟨by decide, h.2.1 _ _ (by decide),
    by unfold validScheme; decide, by unfold validScheme; decide,
    h.2.2.2.1 _ _ _ (by unfold validScheme; decide) (by unfold validScheme; decide)
      (by decide)⟩
